import Mathlib

/-!
Verification development for the mutest mutation-testing engine
(`mutest-emit/src/codegen/mutation.rs` and
`mutest-operators/src/relational_op_invert.rs`).

The Rust source is shallowly embedded: node ids, `DefId`s, `MutId`s and
`MutantId`s become `Nat`; hash maps that the source iterates over become
association lists in insertion order (a deterministic refinement of the
unspecified `FxHashMap` iteration order); hash sets become lists queried
by membership; the random number generator becomes an explicit stream of
naturals (`RngM`), so that quantifying over all streams covers every
possible sequence of random decisions; `f64` values that are only
combined with `*`, `-` and `/` are embedded as rationals.
-/

namespace Mutest

/-! ## Association-list primitives

These model `FxHashMap` entries as used by `reachable_fns` and friends:
`entry(k).or_insert(v)` keeps an existing binding, `insert` overwrites,
and updates apply to the (unique) binding of a key.  Keys stay unique
because insertion only ever happens through `alistOrInsert`/`alistInsert`.
-/

def alistLookup {β : Type _} : List (Nat × β) → Nat → Option β
  | [], _ => none
  | e :: l, k => if e.1 = k then some e.2 else alistLookup l k

def alistOrInsert {β : Type _} (l : List (Nat × β)) (k : Nat) (v : β) : List (Nat × β) :=
  match alistLookup l k with
  | some _ => l
  | none => l ++ [(k, v)]

def alistInsert {β : Type _} : List (Nat × β) → Nat → β → List (Nat × β)
  | [], k, v => [(k, v)]
  | e :: l, k, v => if e.1 = k then (k, v) :: l else e :: alistInsert l k v

def alistUpdate {β : Type _} : List (Nat × β) → Nat → (β → β) → List (Nat × β)
  | [], _, _ => []
  | e :: l, k, f => if e.1 = k then (e.1, f e.2) :: l else e :: alistUpdate l k f

theorem alistLookup_append_single {β : Type _} (l : List (Nat × β)) (k : Nat) (v : β)
    (h : alistLookup l k = none) : alistLookup (l ++ [(k, v)]) k = some v := by
  induction l with
  | nil => simp [alistLookup]
  | cons e l ih =>
      by_cases he : e.1 = k
      · simp [alistLookup, he] at h
      · simpa [alistLookup, he] using ih (by simpa [alistLookup, he] using h)

theorem alistLookup_orInsert_self {β : Type _} (l : List (Nat × β)) (k : Nat) (v : β) :
    alistLookup (alistOrInsert l k v) k = some ((alistLookup l k).getD v) := by
  unfold alistOrInsert
  cases h : alistLookup l k with
  | some w => simp [h]
  | none => simp [alistLookup_append_single l k v h]

theorem alistLookup_append_single_ne {β : Type _} (l : List (Nat × β)) (k k' : Nat) (v : β)
    (hne : k' ≠ k) : alistLookup (l ++ [(k, v)]) k' = alistLookup l k' := by
  induction l with
  | nil =>
      have : ¬k = k' := fun h => hne h.symm
      simp [alistLookup, this]
  | cons e l ih =>
      by_cases he : e.1 = k'
      · simp [alistLookup, he]
      · simpa [alistLookup, he] using ih

theorem alistLookup_orInsert_ne {β : Type _} (l : List (Nat × β)) (k k' : Nat) (v : β)
    (hne : k' ≠ k) : alistLookup (alistOrInsert l k v) k' = alistLookup l k' := by
  unfold alistOrInsert
  cases h : alistLookup l k with
  | some w => rfl
  | none => exact alistLookup_append_single_ne l k k' v hne

theorem alistLookup_update_self {β : Type _} (l : List (Nat × β)) (k : Nat) (f : β → β) :
    alistLookup (alistUpdate l k f) k = (alistLookup l k).map f := by
  induction l with
  | nil => simp [alistLookup, alistUpdate]
  | cons e l ih =>
      by_cases he : e.1 = k
      · simp [alistLookup, alistUpdate, he]
      · simpa [alistLookup, alistUpdate, he] using ih

theorem alistLookup_update_ne {β : Type _} (l : List (Nat × β)) (k k' : Nat) (f : β → β)
    (hne : k' ≠ k) : alistLookup (alistUpdate l k f) k' = alistLookup l k' := by
  induction l with
  | nil => simp [alistUpdate]
  | cons e l ih =>
      have hkk : ¬k = k' := fun h => hne h.symm
      by_cases he : e.1 = k
      · simp [alistLookup, alistUpdate, he, hkk]
      · by_cases he' : e.1 = k'
        · simp [alistLookup, alistUpdate, he, he', hne]
        · simp [alistLookup, alistUpdate, he, he', ih]

/-! ## Plain list helpers used to model in-place `Vec` operations -/

/-- Models mutating a `Vec` element through an `iter_mut` reference at a
known index: every other element is untouched. -/
def listModify {α : Type _} : List α → Nat → (α → α) → List α
  | [], _, _ => []
  | a :: l, 0, f => f a :: l
  | a :: l, n + 1, f => a :: listModify l n f

theorem listModify_length {α : Type _} (l : List α) (i : Nat) (f : α → α) :
    (listModify l i f).length = l.length := by
  induction l generalizing i with
  | nil => rfl
  | cons a l ih => cases i <;> simp [listModify, ih]

theorem listModify_eq_of_get? {α : Type _} (l : List α) (i : Nat) (f : α → α) (a : α)
    (h : l.get? i = some a) :
    listModify l i f = l.take i ++ f a :: l.drop (i + 1) := by
  induction l generalizing i with
  | nil => simp at h
  | cons b l ih =>
      cases i with
      | zero => simp_all [listModify]
      | succ n => simp_all [listModify]

theorem list_eq_take_get_drop {α : Type _} (l : List α) (i : Nat) (a : α)
    (h : l.get? i = some a) : l = l.take i ++ a :: l.drop (i + 1) := by
  induction l generalizing i with
  | nil => simp at h
  | cons b l ih =>
      cases i with
      | zero => simp_all
      | succ n => simpa using ih n (by simpa using h)

/-- Models `Vec::insert` into an `FxHashSet` represented as a list. -/
def setInsert {α : Type _} [DecidableEq α] (l : List α) (a : α) : List α :=
  if a ∈ l then l else l ++ [a]

/-! ## Random number generator model

`rand::Rng` is embedded as an infinite stream of naturals together with a
read position.  Every random decision of the source (`gen_bool`,
`choose_stable`, `shuffle`) consumes one stream value; quantifying over
all streams covers every possible sequence of random outcomes. -/

structure RngM where
  stream : Nat → Nat
  pos : Nat

def RngM.next (r : RngM) : Nat × RngM :=
  (r.stream r.pos, { stream := r.stream, pos := r.pos + 1 })

/-- Models `rng.gen_bool(p)`: the Bernoulli outcome is read off the
stream (the bias `p` only shapes the distribution, not the set of
possible outcomes). -/
def genBoolR (r : RngM) : Bool × RngM :=
  let (v, r') := r.next
  (v == 0, r')

/-- Models `IteratorRandom::choose_stable` over the elements of a list:
`none` exactly when the list is empty, otherwise some element selected by
the next stream value. -/
def chooseFromList {α : Type _} (l : List α) (r : RngM) : Option α × RngM :=
  match l with
  | [] => (none, r)
  | _ :: _ =>
      let (v, r') := r.next
      (l.get? (v % l.length), r')

theorem chooseFromList_some_mem {α : Type _} {l : List α} {r r' : RngM} {a : α}
    (h : chooseFromList l r = (some a, r')) : a ∈ l := by
  cases l with
  | nil => simp [chooseFromList] at h
  | cons b l =>
      simp only [chooseFromList, RngM.next] at h
      exact List.get?_mem (by simpa using congrArg Prod.fst h)

theorem chooseFromList_ne_nil {α : Type _} {l : List α} {r : RngM} (h : l ≠ []) :
    ∃ a r', chooseFromList l r = (some a, r') ∧ a ∈ l := by
  cases l with
  | nil => exact absurd rfl h
  | cons b l =>
      have hlt : r.stream r.pos % (b :: l).length < (b :: l).length :=
        Nat.mod_lt _ (by simp)
      refine ⟨(b :: l).get ⟨_, hlt⟩, (r.next).2, ?_, List.get_mem _ _ _⟩
      simp [chooseFromList, RngM.next, List.get?_eq_get hlt]

/-! ## Unsafety classification (`mutation.rs` lines 551–577)

`UnsafeSource::Unsafe` is rendered `USource.declared` and
`UnsafeSource::EnclosingUnsafe` is `USource.enclosing` (the token
`Unsafe` itself cannot be used as a Lean name here); `Unsafety::Unsafe`
becomes `Unsafety.unsafeFn`.  `rankU` spells out the total order that
`#[derive(PartialOrd, Ord)]` gives the Rust enums: variants compare by
declaration order, payloads lexicographically. -/

inductive USource where
  | enclosing
  | declared
deriving DecidableEq, Repr, Fintype

inductive Unsafety where
  | none
  | tainted (source : USource)
  | unsafeFn (source : USource)
deriving DecidableEq, Repr, Fintype

def USource.rankS : USource → Nat
  | .enclosing => 0
  | .declared => 1

def Unsafety.rankU : Unsafety → Nat
  | .none => 0
  | .tainted .enclosing => 1
  | .tainted .declared => 2
  | .unsafeFn .enclosing => 3
  | .unsafeFn .declared => 4

def Unsafety.leU (a b : Unsafety) : Prop := a.rankU ≤ b.rankU

def Unsafety.ltU (a b : Unsafety) : Prop := a.rankU < b.rankU

instance (a b : Unsafety) : Decidable (a.leU b) := Nat.decLe _ _

instance (a b : Unsafety) : Decidable (a.ltU b) := Nat.decLt _ _

/-- Models `Ord::max(a, b)` in Rust returns `b` when `a <= b` and `a` otherwise. -/
def Unsafety.maxU (a b : Unsafety) : Unsafety :=
  if a.rankU ≤ b.rankU then b else a

/-- Rank of `Option<UnsafeSource>` under the derived order
(`None < Some(EnclosingUnsafe) < Some(Unsafe)`). -/
def optRankS : Option USource → Nat
  | Option.none => 0
  | some s => 1 + s.rankS

/-- Models `Ord::max` on `Option<UnsafeSource>`. -/
def maxOptS (a b : Option USource) : Option USource :=
  if optRankS a ≤ optRankS b then b else a

/-- Models `Option::or`: keeps the first `Some`. -/
def optOr {α : Type _} : Option α → Option α → Option α
  | some x, _ => some x
  | Option.none, b => b

/-- Models `UnsafeTargeting` (`mutation.rs` lines 266–271); the payload `Bool`
models `hir::Unsafety` with `true` for `Unsafe` and `false` for
`Normal`. -/
inductive UnsafeTargeting where
  | none
  | onlyEnclosing (hirUnsafety : Bool)
  | all
deriving DecidableEq, Repr

/-- Models `Unsafety::is_unsafe` (`mutation.rs` lines 570–576), a direct
transcription of the `matches!` arms. -/
def Unsafety.isUnsafeIn (u : Unsafety) (ut : UnsafeTargeting) : Bool :=
  match ut, u with
  | _, .unsafeFn .declared => true
  | _, .tainted .declared => true
  | .none, .unsafeFn _ => true
  | .none, .tainted _ => true
  | .onlyEnclosing true, .unsafeFn .enclosing => true
  | .onlyEnclosing true, .tainted .enclosing => true
  | _, _ => false

/-! ## Syntax-tree fragment and substitutions

Only the parts of `rustc_ast` that the claims exercise are embedded:
binary expressions with their node ids and operator kinds, plus an
opaque constructor for every other expression shape.  `ast::NodeId`
is a `Nat`; `0` stands for `DUMMY_NODE_ID`. -/

/-- Models `ast::BinOpKind`, all 18 variants (`and`/`or` are the lazy boolean
operators, here suffixed to avoid keyword clashes). -/
inductive BinOpKind where
  | add | sub | mul | div | rem
  | andOp | orOp
  | bitXor | bitAnd | bitOr | shl | shr
  | eqOp | lt | le | ne | ge | gt
deriving DecidableEq, Repr

inductive ExprM where
  | binary (nodeId : Nat) (op : BinOpKind) (lhs rhs : ExprM)
  | otherExpr (nodeId : Nat) (kindTag : Nat)
deriving DecidableEq, Repr

def ExprM.nodeIdOf : ExprM → Nat
  | .binary i _ _ _ => i
  | .otherExpr i _ => i

/-- Models `SubstLoc` (`mutation.rs` lines 64–69). -/
inductive SubstLocM where
  | insertBefore (nodeId : Nat)
  | insertAfter (nodeId : Nat)
  | replace (nodeId : Nat)
deriving DecidableEq, Repr

def SubstLocM.anchor : SubstLocM → Nat
  | .insertBefore n => n
  | .insertAfter n => n
  | .replace n => n

/-- Models `SubstLoc::is_dummy` (`mutation.rs` lines 72–78). -/
def SubstLocM.isDummy (l : SubstLocM) : Bool := l.anchor == 0

/-- Models `Subst` (`mutation.rs` lines 81–85); statement and local payloads are
opaque tags since no claim inspects them. -/
inductive SubstM where
  | astExpr (e : ExprM)
  | astStmt (tag : Nat)
  | astLocal (tag : Nat)
deriving DecidableEq, Repr

/-- Models `SubstDef` (`mutation.rs` lines 108–111). -/
structure SubstDefM where
  location : SubstLocM
  substitute : SubstM
deriving DecidableEq, Repr

/-- Modelled from the spec: `conflicting_substs` is defined in
`mutest-emit/src/codegen/substitution.rs`, which is not among the
provided sources; per the spec (§3, SubstLoc), two substitutions
conflict iff their `SubstLoc`s reference the same anchor node,
regardless of insert/replace kind. -/
def conflicting_substs (a b : SubstDefM) : Bool :=
  a.location.anchor == b.location.anchor

/-- Models `MutLoc` (spec §3): a mutable location inside a target.  Payloads
other than the expression are opaque. -/
inductive MutLocM where
  | fnLoc (fnTag : Nat)
  | fnParam (paramTag : Nat) (fnTag : Nat)
  | fnBodyStmt (stmtTag : Nat) (fnTag : Nat)
  | fnBodyExpr (expr : ExprM) (fnTag : Nat)
deriving DecidableEq, Repr

/-! ## `RelationalOpInvert` (`relational_op_invert.rs`) -/

structure RelationalOpInvertMutationM where
  originalBinOp : BinOpKind
  replacementBinOp : BinOpKind
deriving DecidableEq, Repr

/-- The `match bin_op.node` table of `try_apply`
(`relational_op_invert.rs` lines 33–39), returning `none` on the
catch-all arm. -/
def invertedBinOpOf : BinOpKind → Option BinOpKind
  | .lt => some .ge
  | .le => some .gt
  | .gt => some .le
  | .ge => some .lt
  | _ => Option.none

/-- Models `RelationalOpInvert::try_apply` (`relational_op_invert.rs` lines
26–53).  `defSite` models the hygienic def-site span passed to
`ast::mk::expr_binary`; the freshly built expression carries
`DUMMY_NODE_ID` (= 0) like all `ast::mk` nodes, and clones the original
operands. -/
def relationalOpInvert_try_apply (defSite : Nat) (location : MutLocM) :
    Option (RelationalOpInvertMutationM × List SubstDefM) :=
  match location with
  | .fnBodyExpr expr _ =>
      match expr with
      | .binary nodeId op lhs rhs =>
          match invertedBinOpOf op with
          | some inv =>
              some (⟨op, inv⟩,
                [⟨SubstLocM.replace nodeId, SubstM.astExpr (.binary 0 inv lhs rhs)⟩])
          | Option.none => Option.none
      | .otherExpr _ _ => Option.none
  | _ => Option.none

/-! ## Mutations, mutants and the conflict graph
(`mutation.rs` lines 178–258, 921–1045)

For batching, a `Mut` is embedded with the fields the conflict-graph
builder and the batching engine read: its dense `MutId` (a `Nat`), the
`is_in_unsafe_block` flag, its substitutions, and a projection of its
`&Target`: the target's `unsafety` and the `test.item.id` keys of its
`reachable_from` map (which is all `conflicting_targets` and
`Mut::is_unsafe` consume). -/

/-- Projection of `Target` used by `conflicting_targets` and
`Mut::is_unsafe`. -/
structure TargetB where
  reachableFromTests : List Nat
  unsafety : Unsafety
deriving DecidableEq, Repr

structure MutM where
  id : Nat
  target : TargetB
  inUnsafeBlock : Bool
  substs : List SubstDefM
deriving DecidableEq, Repr

/-- Models `Mut::is_unsafe` (`mutation.rs` lines 242–244). -/
def MutM.isUnsafeIn (m : MutM) (ut : UnsafeTargeting) : Bool :=
  m.inUnsafeBlock || m.target.unsafety.isUnsafeIn ut

/-- Models `conflicting_targets` (`mutation.rs` lines 945–949): the reaching
test sets are not disjoint. -/
def conflicting_targets (a b : TargetB) : Bool :=
  a.reachableFromTests.any (fun t => b.reachableFromTests.contains t)

structure MutantM where
  id : Nat
  mutations : List MutM
deriving DecidableEq, Repr

/-- Models `MutationConflictGraph` (`mutation.rs` lines 951–956); the hash sets
become lists queried by membership. -/
structure MutationConflictGraph where
  nMutations : Nat
  unsafes : List Nat
  conflicts : List (Nat × Nat)
deriving DecidableEq, Repr

/-- Models `MutationConflictGraph::is_unsafe` (`mutation.rs` lines 959–961). -/
def MutationConflictGraph.isUnsafeId (g : MutationConflictGraph) (v : Nat) : Bool :=
  g.unsafes.contains v

/-- Models `MutationConflictGraph::conflicting_mutations` (`mutation.rs` lines
963–965). -/
def conflicting_mutations (g : MutationConflictGraph) (a b : Nat) : Bool :=
  g.conflicts.contains (a, b) || g.conflicts.contains (b, a)

/-- The `is_conflicting` disjunction of `generate_mutation_conflict_graph`
(`mutation.rs` lines 1027–1034). -/
def gmcgConflictCond (ut : UnsafeTargeting) (m o : MutM) : Bool :=
  m.isUnsafeIn ut
    || o.isUnsafeIn ut
    || conflicting_targets m.target o.target
    || m.substs.any (fun s => o.substs.any (fun t => conflicting_substs s t))

/-- The pair-enumeration loop of `generate_mutation_conflict_graph`
(`mutation.rs` lines 1020–1040): the outer iterator visits each mutation,
the cloned inner iterator visits every later mutation. -/
def gmcgGo (ut : UnsafeTargeting) : List MutM → List Nat × List (Nat × Nat)
  | [] => ([], [])
  | m :: rest =>
      ((if m.isUnsafeIn ut then [m.id] else []) ++ (gmcgGo ut rest).1,
       rest.filterMap (fun o => if gmcgConflictCond ut m o then some (m.id, o.id) else Option.none)
         ++ (gmcgGo ut rest).2)

/-- Models `generate_mutation_conflict_graph` (`mutation.rs` lines 1016–1045). -/
def generate_mutation_conflict_graph (mutations : List MutM) (ut : UnsafeTargeting) :
    MutationConflictGraph :=
  let (us, cs) := gmcgGo ut mutations
  { nMutations := (mutations.map (fun m => m.id)).foldl max 0,
    unsafes := us,
    conflicts := cs }

/-- Pair enumeration of `validate_mutation_batches` over one mutant's
mutations (same cloned-iterator pattern as the conflict-graph builder). -/
def mutantPairErrors (g : MutationConflictGraph) (mutantId : Nat) :
    List MutM → List (Nat × Nat × Nat)
  | [] => []
  | m :: rest =>
      rest.filterMap (fun o =>
        if conflicting_mutations g m.id o.id then some (mutantId, m.id, o.id) else Option.none)
        ++ mutantPairErrors g mutantId rest

/-- Models `validate_mutation_batches` error payload: offending mutant id plus
the two conflicting mutation ids. -/
def mutantConflictErrors (g : MutationConflictGraph) (mutant : MutantM) : List (Nat × Nat × Nat) :=
  mutantPairErrors g mutant.id mutant.mutations

/-- Models `validate_mutation_batches` (`mutation.rs` lines 1051–1069). -/
def validate_mutation_batches (mutants : List MutantM) (g : MutationConflictGraph) :
    Except (List (Nat × Nat × Nat)) Unit :=
  let errors := mutants.flatMap (fun mutant => mutantConflictErrors g mutant)
  if errors.isEmpty then Except.ok () else Except.error errors

/-! ## Batching engine (`mutation.rs` lines 1071–1225) -/

/-- Models `compatible_mutant` (`mutation.rs` lines 1083–1096). -/
def compatible_mutant (mutation : MutM) (mutant : MutantM) (g : MutationConflictGraph)
    (mutantMaxMutationsCount : Nat) : Bool :=
  if mutantMaxMutationsCount ≤ mutant.mutations.length then false
  else if mutant.mutations.any (fun m => conflicting_mutations g m.id mutation.id) then false
  else true

/-- Models `choose_random_mutant` (`mutation.rs` lines 1100–1118), returning the
index of the chosen mutant so the caller can push into it.
`iter_mut().filter(..).choose_stable(rng)` is modelled by filtering the
index range and picking one index with the next stream value. -/
def choose_random_mutant (mutation : MutM) (mutants : List MutantM)
    (g : MutationConflictGraph) (cap : Nat) (rng : RngM) : Option Nat × RngM :=
  if mutants.isEmpty then (Option.none, rng)
  else if g.isUnsafeId mutation.id then (Option.none, rng)
  else
    let idxs := (List.range mutants.length).filter
      (fun i => compatible_mutant mutation (mutants.getD i ⟨0, []⟩) g cap)
    chooseFromList idxs rng

/-- The `'mutant_candidate` block of `batch_mutations_greedy`
(`mutation.rs` lines 1171–1189): `none` to isolate an unsafe mutation,
otherwise either the epsilon-random choice or the first compatible
mutant (`iter_mut().find(..)`, modelled as the index of that mutant).
`eps = some ε` turns on the epsilon-greedy branch; the `gen_bool`
outcome comes from the stream. -/
def greedyCandidate (g : MutationConflictGraph) (eps : Option ℚ) (cap : Nat)
    (mutants : List MutantM) (mutation : MutM) (rng : RngM) : Option Nat × RngM :=
  if g.isUnsafeId mutation.id then (Option.none, rng)
  else
    match eps with
    | some _ =>
        let (b, rng1) := genBoolR rng
        if b then choose_random_mutant mutation mutants g cap rng1
        else (mutants.findIdx? (fun mutant => compatible_mutant mutation mutant g cap), rng1)
    | Option.none =>
        (mutants.findIdx? (fun mutant => compatible_mutant mutation mutant g cap), rng)

/-- One iteration of the `for mutation in mutations` loop of
`batch_mutations_greedy` (`mutation.rs` lines 1170–1198).  State:
`(mutants, next_mutant_index, rng)`. -/
def greedyStep (g : MutationConflictGraph) (eps : Option ℚ) (cap : Nat)
    (st : List MutantM × Nat × RngM) (mutation : MutM) : List MutantM × Nat × RngM :=
  let (mutants, nextIdx, rng) := st
  let cr := greedyCandidate g eps cap mutants mutation rng
  match cr.1 with
  | some i =>
      (listModify mutants i (fun mutant => { mutant with mutations := mutant.mutations ++ [mutation] }),
       nextIdx, cr.2)
  | Option.none => (mutants ++ [⟨nextIdx, [mutation]⟩], nextIdx + 1, cr.2)

/-- Models `batch_mutations_greedy` (`mutation.rs` lines 1127–1201).  The
optional pre-ordering pass (conflict-count sort, reversal, or shuffle)
only permutes `mutations`; the theorems therefore quantify over the
processed list, or over an arbitrary permutation of the original list
where the distinction matters. -/
def batch_mutations_greedy (mutations : List MutM) (g : MutationConflictGraph)
    (eps : Option ℚ) (rng : RngM) (cap : Nat) : List MutantM :=
  (mutations.foldl (greedyStep g eps cap) ([], 1, rng)).1

/-- One iteration of the loop of `batch_mutations_random`
(`mutation.rs` lines 1212–1222). -/
def randomStep (g : MutationConflictGraph) (cap : Nat)
    (st : List MutantM × Nat × RngM) (mutation : MutM) : List MutantM × Nat × RngM :=
  let (mutants, nextIdx, rng) := st
  let cr := choose_random_mutant mutation mutants g cap rng
  match cr.1 with
  | some i =>
      (listModify mutants i (fun mutant => { mutant with mutations := mutant.mutations ++ [mutation] }),
       nextIdx, cr.2)
  | Option.none => (mutants ++ [⟨nextIdx, [mutation]⟩], nextIdx + 1, cr.2)

/-- Models `batch_mutations_random` (`mutation.rs` lines 1203–1225). -/
def batch_mutations_random (mutations : List MutM) (g : MutationConflictGraph)
    (cap : Nat) (rng : RngM) : List MutantM :=
  (mutations.foldl (randomStep g cap) ([], 1, rng)).1

/-! ## Simulated annealing (`mutation.rs` lines 1227–1313) -/

/-- Models `StateChange::MoveMutation` (`mutation.rs` lines 1234–1237). -/
structure StateChangeM where
  mutationId : Nat
  oldMutantId : Nat
  newMutantId : Nat
deriving DecidableEq, Repr

/-- Removes the first element satisfying `p`, returning it and the rest:
models `Vec::extract_if(..).next()` (only the first match is pulled out;
dropping the iterator leaves later matches in place). -/
def listExtractFirst {α : Type _} (p : α → Bool) : List α → Option (α × List α)
  | [] => Option.none
  | a :: l =>
      if p a then some (a, l)
      else (listExtractFirst p l).map (fun x => (x.1, a :: x.2))

/-- Models `StateChange::apply` (`mutation.rs` lines 1240–1252), with each
`let .. else unreachable!()` rendered as an `Option.bind`: find the
source mutant by id, pull the moved mutation out of it, drop the source
mutant if it became empty, then push the mutation onto the destination
mutant found by id. -/
def stateChangeApply (sc : StateChangeM) (mutants : List MutantM) : Option (List MutantM) :=
  (mutants.findIdx? (fun m => m.id == sc.oldMutantId)).bind (fun oldIdx =>
    let oldMutant := mutants.getD oldIdx ⟨0, []⟩
    (listExtractFirst (fun m => m.id == sc.mutationId) oldMutant.mutations).bind (fun pr =>
      let mutants1 :=
        if pr.2.isEmpty then mutants.eraseIdx oldIdx
        else listModify mutants oldIdx (fun m => { m with mutations := pr.2 })
      (mutants1.findIdx? (fun m => m.id == sc.newMutantId)).map (fun newIdx =>
        listModify mutants1 newIdx
          (fun m => { m with mutations := m.mutations ++ [pr.1] }))))

/-- Models `random_neighbour_state` (`mutation.rs` lines 1255–1276), with an
explicit fuel bound on the source's unbounded `loop`: `none` means the
loop has not produced a proposal within `fuel` rounds (the `unreachable!()`
panics on an empty state are also `none`). -/
def random_neighbour_state (g : MutationConflictGraph) (cap : Nat) :
    Nat → List MutantM → RngM → Option (StateChangeM × RngM)
  | 0, _, _ => Option.none
  | fuel + 1, mutants, rng =>
      match chooseFromList mutants rng with
      | (Option.none, _) => Option.none
      | (some randomMutant, rng1) =>
          match chooseFromList randomMutant.mutations rng1 with
          | (Option.none, _) => Option.none
          | (some randomMutation, rng2) =>
              let compatibleMutants := mutants.filter
                (fun m => (!(m.id == randomMutant.id))
                  && compatible_mutant randomMutation m g cap)
              match chooseFromList compatibleMutants rng2 with
              | (some newRandomMutant, rng3) =>
                  some (⟨randomMutation.id, randomMutant.id, newRandomMutant.id⟩, rng3)
              | (Option.none, rng3) => random_neighbour_state g cap fuel mutants rng3

/-- Models `temperature` (`mutation.rs` lines 1278–1280), over ℚ. -/
def temperature (iterationsExpended : ℚ) (maxIterations : Nat) : ℚ :=
  (maxIterations : ℚ) * (1 - iterationsExpended)

/-- The temperature actually used at iteration `i` of
`optimize_batches_simulated_annealing` (`mutation.rs` line 1303): the
argument passed for `iterations_expended` is `1 - (i + 1) / max_iterations`. -/
def tempAtIter (i maxIterations : Nat) : ℚ :=
  temperature (1 - ((i : ℚ) + 1) / (maxIterations : ℚ)) maxIterations

/-- Models `energy` (`mutation.rs` lines 1282–1295): the mutant count, counting
the source mutant of a proposed move as gone when the move would empty
it.  The `unreachable!()` arm (stale mutant id) is `none`. -/
def energy (mutants : List MutantM) (stateChange : Option StateChangeM) : Option ℚ :=
  match stateChange with
  | some sc =>
      (mutants.find? (fun m => m.id == sc.oldMutantId)).map (fun oldMutant =>
        if oldMutant.mutations.length ≤ 1 then ((mutants.length - 1 : Nat) : ℚ)
        else (mutants.length : ℚ))
  | Option.none => some (mutants.length : ℚ)

/-! ## Reachability analyzer (`reachable_fns`, `mutation.rs` lines 605–845)

The compiler oracle is abstracted into `ReachEnv`: callees are opaque
keys (standing for `Callee = (DefId, GenericArgs)` after
`Instance::expect_resolve`), with per-key queries mirroring the `tcx`
calls the function makes.  `env.calls` returns the already-resolved
calls of a key (the `res::mir_callees` + `instantiate_generic_args` +
`expect_resolve` pipeline), each tagged with whether the call site is
inside an unsafe context (`call.unsafety == hir::Unsafety::Unsafe`).
Tests are also keyed by their `def_id`. -/

structure CallM where
  callee : Nat
  unsafeCall : Bool
deriving DecidableEq, Repr

structure TestM where
  defId : Nat
  ignore : Bool
deriving DecidableEq, Repr

structure ReachEnv where
  /-- resolved calls of a callee key (or of a test's `def_id`) -/
  calls : Nat → List CallM
  /-- Models `tcx.is_const_fn(caller.def_id)` -/
  isConstFn : Nat → Bool
  /-- Models `caller.def_id.as_local()` -/
  localDefId : Nat → Option Nat
  /-- Models `tcx.hir_node_by_def_id(local).body_id().is_some()` -/
  hasBody : Nat → Bool
  /-- the combined skip conditions (inner fn of a test, `#[cfg(test)]`,
  `#[mutest::skip]`) on a local def -/
  skip : Nat → Bool
  /-- Models `ast_lowering::find_def_in_ast` succeeds for the local def -/
  findDef : Nat → Bool
  /-- Models `check_item_unsafety` of the local def's item -/
  itemUnsafety : Nat → Unsafety
  /-- Models `tcx.is_mir_available(caller.def_id)` -/
  mirAvailable : Nat → Bool

/-- Models `EntryPointAssociation` (`mutation.rs` lines 605–609). -/
structure EPAm where
  distance : Nat
  unsafeCallPath : Option USource
deriving DecidableEq, Repr

/-- Models `Target` (`mutation.rs` lines 611–617); `reachable_from` is an
association list keyed by the test's `def_id`. -/
structure TargetM where
  defId : Nat
  unsafety : Unsafety
  reachableFrom : List (Nat × EPAm)
  distance : Nat
deriving DecidableEq, Repr

/-- Models `CallPaths`: test `def_id` ↦ most severe unsafety source on the
current call-tree walk (`mutation.rs` line 707). -/
abbrev CallPaths := List (Nat × Option USource)

/-- Models `previously_found_callees` / `newly_found_callees`: callee key ↦
call paths. -/
abbrev FrontierM := List (Nat × CallPaths)

abbrev TargetsM := List (Nat × TargetM)

/-- Models `CallGraph` (`mutation.rs` lines 673–676). -/
structure CallGraphM where
  rootCalls : List (Nat × Nat)
  nestedCalls : List (List (Nat × Nat))
deriving Repr

/-- The per-test-and-caller body of the target merge (`mutation.rs`
lines 777–789): taint the target with the call path's unsafety, then
`or_insert` the `EntryPointAssociation` at the current distance and max
its `unsafe_call_path`. -/
def mergePath (distance : Nat) (tgt : TargetM) (tu : Nat × Option USource) : TargetM :=
  let callerTainting := (tu.2.map Unsafety.tainted).getD Unsafety.none
  let tgt := { tgt with unsafety := Unsafety.maxU callerTainting tgt.unsafety }
  let rf := alistOrInsert tgt.reachableFrom tu.1 ⟨distance, Option.none⟩
  let rf := alistUpdate rf tu.1 (fun ep => { ep with unsafeCallPath := maxOptS tu.2 ep.unsafeCallPath })
  { tgt with reachableFrom := rf }

/-- The `targets.entry(local_def_id).or_insert_with(..)` block plus the
`for (test, unsafety) in call_paths` loop (`mutation.rs` lines 768–789). -/
def mergeTargetEntry (env : ReachEnv) (distance : Nat) (localId : Nat)
    (callPaths : CallPaths) (targets : TargetsM) : TargetsM :=
  let targets := alistOrInsert targets localId
    { defId := localId, unsafety := env.itemUnsafety localId,
      reachableFrom := [], distance := distance }
  alistUpdate targets localId (fun tgt => callPaths.foldl (mergePath distance) tgt)

/-- Whether a frontier entry `(callerKey, _)` gets merged into `targets`
as local def `L` (`mutation.rs` lines 752–767): not `const`, local with a
body, not skipped, and found in the AST. -/
def mergeCond (env : ReachEnv) (callerKey L : Nat) : Prop :=
  env.isConstFn callerKey = false ∧ env.localDefId callerKey = some L ∧
    env.hasBody L = true ∧ env.skip L = false ∧ env.findDef L = true

instance (env : ReachEnv) (k L : Nat) : Decidable (mergeCond env k L) := by
  unfold mergeCond; infer_instance

/-- Target-map effect of processing one drained frontier entry. -/
def processEntryTargets (env : ReachEnv) (distance : Nat) (targets : TargetsM)
    (e : Nat × CallPaths) : TargetsM :=
  if env.isConstFn e.1 then targets
  else
    match env.localDefId e.1 with
    | some L =>
        if env.hasBody L then
          if !env.skip L && env.findDef L then mergeTargetEntry env distance L e.2 targets
          else targets
        else targets
    | Option.none => targets

/-- The `for (&test, &unsafety) in &call_paths` propagation loop inside
the callee expansion (`mutation.rs` lines 828–836). -/
def propagatePaths (c : CallM) (callPaths : CallPaths) (ncp : CallPaths) : CallPaths :=
  callPaths.foldl (fun ncp tu =>
    let unsafeSource := if c.unsafeCall then some USource.declared else tu.2
    let ncp := alistOrInsert ncp tu.1 tu.2
    alistUpdate ncp tu.1 (fun u => optOr u unsafeSource)) ncp

/-- Effect of one discovered call on `newly_found_callees`
(`mutation.rs` lines 822–836). -/
def addCallEntry (c : CallM) (callPaths : CallPaths) (nf : FrontierM) : FrontierM :=
  let nf := alistOrInsert nf c.callee []
  alistUpdate nf c.callee (fun ncp => propagatePaths c callPaths ncp)

/-- New-frontier effect of processing one drained frontier entry
(`mutation.rs` lines 751–838): `const` callers and local callers without
a body `continue` before expanding; expansion only happens below the
final depth and when MIR is available. -/
def processEntryFrontier (env : ReachEnv) (depth distance : Nat) (nf : FrontierM)
    (e : Nat × CallPaths) : FrontierM :=
  if env.isConstFn e.1 then nf
  else if (match env.localDefId e.1 with
           | some L => !env.hasBody L
           | Option.none => false) then nf
  else if distance < depth - 1 then
    if env.mirAvailable e.1 then
      (env.calls e.1).foldl (fun nf c => addCallEntry c e.2 nf) nf
    else nf
  else nf

/-- Nested-call-graph effect of processing one drained frontier entry:
`call_graph.nested_calls[distance].insert((caller, callee))`
(`mutation.rs` line 824), under the same gating as the expansion. -/
def processEntryNested (env : ReachEnv) (depth distance : Nat)
    (nested : List (List (Nat × Nat))) (e : Nat × CallPaths) : List (List (Nat × Nat)) :=
  if env.isConstFn e.1 then nested
  else if (match env.localDefId e.1 with
           | some L => !env.hasBody L
           | Option.none => false) then nested
  else if distance < depth - 1 then
    if env.mirAvailable e.1 then
      (env.calls e.1).foldl
        (fun nested c => listModify nested distance (fun lvl => setInsert lvl (e.1, c.callee))) nested
    else nested
  else nested

/-- One drained frontier entry, full state effect.  The three components
never read each other, so the state step is their product. -/
def processEntryFull (env : ReachEnv) (depth distance : Nat)
    (st : TargetsM × FrontierM × List (List (Nat × Nat))) (e : Nat × CallPaths) :
    TargetsM × FrontierM × List (List (Nat × Nat)) :=
  (processEntryTargets env distance st.1 e,
   processEntryFrontier env depth distance st.2.1 e,
   processEntryNested env depth distance st.2.2 e)

/-- One `distance` round of the main loop (`mutation.rs` lines 748–842):
drain the previous frontier, then continue with the newly found callees. -/
def processRound (env : ReachEnv) (depth distance : Nat)
    (frontier : FrontierM) (targets : TargetsM) (nested : List (List (Nat × Nat))) :
    TargetsM × FrontierM × List (List (Nat × Nat)) :=
  frontier.foldl (processEntryFull env depth distance) (targets, [], nested)

/-- The seed loop over tests (`mutation.rs` lines 713–744): resolve each
non-ignored test's direct calls, record them as root calls, and insert
`(test, None)` into each callee's call paths (a plain overwriting
`insert`). -/
def seedFrontier (env : ReachEnv) (tests : List TestM) : List (Nat × Nat) × FrontierM :=
  tests.foldl (fun (st : List (Nat × Nat) × FrontierM) test =>
    if test.ignore then st
    else
      (env.calls test.defId).foldl (fun (st : List (Nat × Nat) × FrontierM) c =>
        let roots := setInsert st.1 (test.defId, c.callee)
        let fr := alistOrInsert st.2 c.callee []
        (roots, alistUpdate fr c.callee (fun cp => alistInsert cp test.defId Option.none))) st)
    ([], [])

/-- The `for distance in 0..depth` loop, folded over the rounds. -/
def reachRounds (env : ReachEnv) (depth : Nat) :
    Nat → TargetsM × FrontierM × List (List (Nat × Nat)) →
      TargetsM × FrontierM × List (List (Nat × Nat))
  | 0, st => st
  | n + 1, st =>
      let st' := reachRounds env depth n st
      processRound env depth n st'.2.1 st'.1 st'.2.2

/-- Models `reachable_fns` minus the `depth - 1` underflow check: seed the
frontier from the tests, allocate `depth - 1` empty nested-call levels,
run all `depth` rounds. -/
def reachableFnsCore (env : ReachEnv) (tests : List TestM) (depth : Nat) :
    CallGraphM × TargetsM :=
  let (roots, fr0) := seedFrontier env tests
  let (targets, _, nested) :=
    reachRounds env depth depth ([], fr0, List.replicate (depth - 1) [])
  (⟨roots, nested⟩, targets)

/-- Models `reachable_fns` (`mutation.rs` lines 678–845).  `depth = 0` makes
`iter::repeat_with(..).take(depth - 1)` underflow its unsigned count
(a debug-build panic), modelled as `none`. -/
def reachable_fns (env : ReachEnv) (tests : List TestM) (depth : Nat) :
    Option (CallGraphM × TargetsM) :=
  match depth with
  | 0 => Option.none
  | _ + 1 => some (reachableFnsCore env tests depth)

/-- The frontier at the start of round `d` (`previously_found_callees`
when `distance = d`). -/
def frontierAt (env : ReachEnv) (tests : List TestM) (depth : Nat) : Nat → FrontierM
  | 0 => (seedFrontier env tests).2
  | d + 1 =>
      (frontierAt env tests depth d).foldl (processEntryFrontier env depth d) []

/-- The target map after the first `n` rounds. -/
def targetsAt (env : ReachEnv) (tests : List TestM) (depth : Nat) : Nat → TargetsM
  | 0 => []
  | n + 1 =>
      (frontierAt env tests depth n).foldl (processEntryTargets env n)
        (targetsAt env tests depth n)

/-- A definition `L` is discovered from test `t` at distance `d`: some
call path of length `d` puts a callee key resolving to `L` into the
round-`d` frontier with `t` among its call paths, and the entry passes
the target-recording conditions. -/
def DiscoveredAt (env : ReachEnv) (tests : List TestM) (depth d L t : Nat) : Prop :=
  ∃ e ∈ frontierAt env tests depth d,
    mergeCond env e.1 L ∧ (alistLookup e.2 t).isSome = true

/-! ## Structural lemmas about the reachability loop -/

theorem length_foldl_nested (env : ReachEnv) (depth d : Nat) (e1 : Nat) (cs : List CallM) :
    ∀ ns : List (List (Nat × Nat)),
      (cs.foldl (fun ns c => listModify ns d (fun lvl => setInsert lvl (e1, c.callee))) ns).length
        = ns.length := by
  induction cs with
  | nil => intro ns; rfl
  | cons c cs ih => intro ns; simp [List.foldl_cons, ih, listModify_length]

theorem length_processEntryNested (env : ReachEnv) (depth d : Nat)
    (ns : List (List (Nat × Nat))) (e : Nat × CallPaths) :
    (processEntryNested env depth d ns e).length = ns.length := by
  unfold processEntryNested
  split_ifs <;> simp [length_foldl_nested env depth d e.1]

theorem length_foldl_processEntryNested (env : ReachEnv) (depth d : Nat) (l : FrontierM) :
    ∀ ns, (l.foldl (processEntryNested env depth d) ns).length = ns.length := by
  induction l with
  | nil => intro ns; rfl
  | cons e l ih =>
      intro ns
      simp [List.foldl_cons, ih, length_processEntryNested]

theorem foldl_processEntryFull (env : ReachEnv) (depth d : Nat) (l : FrontierM) :
    ∀ (t : TargetsM) (nf : FrontierM) (ns : List (List (Nat × Nat))),
      l.foldl (processEntryFull env depth d) (t, nf, ns) =
        (l.foldl (processEntryTargets env d) t,
         l.foldl (processEntryFrontier env depth d) nf,
         l.foldl (processEntryNested env depth d) ns) := by
  induction l with
  | nil => intros; rfl
  | cons e l ih =>
      intro t nf ns
      simpa [List.foldl_cons, processEntryFull] using ih _ _ _

theorem reachRounds_spec (env : ReachEnv) (tests : List TestM) (depth : Nat) :
    ∀ n,
      (reachRounds env depth n
          ([], (seedFrontier env tests).2, List.replicate (depth - 1) [])).1
          = targetsAt env tests depth n
        ∧ (reachRounds env depth n
            ([], (seedFrontier env tests).2, List.replicate (depth - 1) [])).2.1
          = frontierAt env tests depth n
        ∧ (reachRounds env depth n
            ([], (seedFrontier env tests).2, List.replicate (depth - 1) [])).2.2.length
          = depth - 1 := by
  intro n
  induction n with
  | zero => exact ⟨rfl, rfl, by simp [reachRounds]⟩
  | succ n ih =>
      obtain ⟨h1, h2, h3⟩ := ih
      have hstep :
          reachRounds env depth (n + 1)
              ([], (seedFrontier env tests).2, List.replicate (depth - 1) []) =
            processRound env depth n
              (reachRounds env depth n
                ([], (seedFrontier env tests).2, List.replicate (depth - 1) [])).2.1
              (reachRounds env depth n
                ([], (seedFrontier env tests).2, List.replicate (depth - 1) [])).1
              (reachRounds env depth n
                ([], (seedFrontier env tests).2, List.replicate (depth - 1) [])).2.2 := rfl
      rw [hstep, h1, h2]
      unfold processRound
      rw [foldl_processEntryFull]
      refine ⟨rfl, rfl, ?_⟩
      rw [length_foldl_processEntryNested]
      exact h3

theorem reachableFnsCore_targets (env : ReachEnv) (tests : List TestM) (depth : Nat) :
    (reachableFnsCore env tests depth).2 = targetsAt env tests depth depth := by
  unfold reachableFnsCore
  have h := reachRounds_spec env tests depth depth
  simp only []
  exact h.1

theorem reachableFnsCore_nested_length (env : ReachEnv) (tests : List TestM) (depth : Nat) :
    (reachableFnsCore env tests depth).1.nestedCalls.length = depth - 1 := by
  unfold reachableFnsCore
  have h := reachRounds_spec env tests depth depth
  simp only []
  exact h.2.2

/-- C10: `reachable_fns` needs `depth >= 1`: at `depth = 0` the
`depth - 1` sizing of `nested_calls` underflows (modelled as `none`,
a debug-build panic in Rust) instead of returning an empty target set,
and for every `depth >= 1` the run is well-defined with exactly
`depth - 1` nested-call levels. -/
theorem reachable_fns_depth_precondition :
    (∀ (env : ReachEnv) (tests : List TestM), reachable_fns env tests 0 = Option.none)
      ∧ ∀ (env : ReachEnv) (tests : List TestM) (depth : Nat), 1 ≤ depth →
          ∃ cg tgts, reachable_fns env tests depth = some (cg, tgts)
            ∧ cg.nestedCalls.length = depth - 1 := by
  refine ⟨fun env tests => rfl, fun env tests depth hdepth => ?_⟩
  match depth, hdepth with
  | n + 1, _ =>
      refine ⟨(reachableFnsCore env tests (n + 1)).1, (reachableFnsCore env tests (n + 1)).2,
        rfl, ?_⟩
      exact reachableFnsCore_nested_length env tests (n + 1)

/-- Witness for C10 at a concrete input: depth 3 succeeds with two
nested-call levels. -/
theorem reachable_fns_depth_precondition_witness :
    (1 : Nat) ≤ 3 ∧
      ∃ cg tgts,
        reachable_fns
            { calls := fun _ => [], isConstFn := fun _ => false,
              localDefId := fun _ => Option.none, hasBody := fun _ => true,
              skip := fun _ => false, findDef := fun _ => true,
              itemUnsafety := fun _ => Unsafety.none, mirAvailable := fun _ => true }
            [⟨100, false⟩] 3 = some (cg, tgts)
          ∧ cg.nestedCalls.length = 3 - 1 :=
  ⟨by decide,
   reachable_fns_depth_precondition.2
     { calls := fun _ => [], isConstFn := fun _ => false,
       localDefId := fun _ => Option.none, hasBody := fun _ => true,
       skip := fun _ => false, findDef := fun _ => true,
       itemUnsafety := fun _ => Unsafety.none, mirAvailable := fun _ => true }
     [⟨100, false⟩] 3 (by decide)⟩

/-- C4 (code bug): the temperature actually used at iteration `i` of
`optimize_batches_simulated_annealing` is `i + 1` — it *increases*
linearly from `1` to `max_iterations` instead of decreasing linearly to
`0` as the spec states: the call site passes
`1 - (i + 1) / max_iterations` (the *remaining*-iterations fraction) as
`iterations_expended`, so the two `1 - _` negations cancel. -/
theorem annealing_temperature_increases (i maxIterations : Nat) (h : maxIterations ≠ 0) :
    tempAtIter i maxIterations = (i : ℚ) + 1 := by
  have hq : (maxIterations : ℚ) ≠ 0 := Nat.cast_ne_zero.mpr h
  unfold tempAtIter temperature
  field_simp

/-- Witness for C4: with a budget of 2 iterations the temperature is 1
at iteration 0 and 2 at iteration 1 (rising, and ending at
`max_iterations` rather than 0). -/
theorem annealing_temperature_increases_witness :
    tempAtIter 0 2 = (0 : ℚ) + 1 ∧ tempAtIter 1 2 = (1 : ℚ) + 1 :=
  ⟨annealing_temperature_increases 0 2 (by decide),
   annealing_temperature_increases 1 2 (by decide)⟩

/-- C5 (code bug): on a state with a single mutant — a perfectly normal
outcome of batching — `random_neighbour_state` never produces a
proposal, for any conflict graph, cap, rng stream and fuel bound: the
compatible-mutant filter excludes the mutation's own mutant and no other
mutant exists, so the source's `loop` re-samples forever and
`optimize_batches_simulated_annealing` hangs instead of performing its
`max_iterations` iterations. -/
theorem random_neighbour_state_single_mutant_diverges
    (g : MutationConflictGraph) (cap : Nat) :
    ∀ (fuel : Nat) (mutant : MutantM) (rng : RngM),
      random_neighbour_state g cap fuel [mutant] rng = Option.none := by
  intro fuel
  induction fuel with
  | zero => intro mutant rng; rfl
  | succ n ih =>
      intro mutant rng
      unfold random_neighbour_state
      rcases h1 : chooseFromList [mutant] rng with ⟨o1, r1⟩
      cases o1 with
      | none => simp [h1]
      | some rm =>
          have hrm : rm = mutant := by
            have hmem := chooseFromList_some_mem h1
            simpa using hmem
          rcases h2 : chooseFromList rm.mutations r1 with ⟨o2, r2⟩
          cases o2 with
          | none => simp [h1, h2]
          | some rmu =>
              have hfilter :
                  List.filter
                    (fun m2 => (!(m2.id == rm.id)) && compatible_mutant rmu m2 g cap)
                    [mutant] = [] := by
                subst hrm
                simp [List.filter]
              simp only [h1, h2]
              simp only [hfilter]
              simp only [chooseFromList]
              exact ih mutant r2

/-- C9: `RelationalOpInvert::try_apply` yields, for a body expression
that is a relational binary operation, exactly one mutation with a
single `SubstLoc::Replace` of the expression's node, substituting the
same operands under the operator with flipped direction and boundary
(`<` ↦ `>=`, `<=` ↦ `>`, `>` ↦ `<=`, `>=` ↦ `<`); every other operator,
expression shape or location yields no mutation. -/
theorem relational_op_invert_spec :
    (∀ ds nodeId l r c,
        relationalOpInvert_try_apply ds (.fnBodyExpr (.binary nodeId .lt l r) c) =
          some (⟨.lt, .ge⟩, [⟨.replace nodeId, .astExpr (.binary 0 .ge l r)⟩]))
      ∧ (∀ ds nodeId l r c,
        relationalOpInvert_try_apply ds (.fnBodyExpr (.binary nodeId .le l r) c) =
          some (⟨.le, .gt⟩, [⟨.replace nodeId, .astExpr (.binary 0 .gt l r)⟩]))
      ∧ (∀ ds nodeId l r c,
        relationalOpInvert_try_apply ds (.fnBodyExpr (.binary nodeId .gt l r) c) =
          some (⟨.gt, .le⟩, [⟨.replace nodeId, .astExpr (.binary 0 .le l r)⟩]))
      ∧ (∀ ds nodeId l r c,
        relationalOpInvert_try_apply ds (.fnBodyExpr (.binary nodeId .ge l r) c) =
          some (⟨.ge, .lt⟩, [⟨.replace nodeId, .astExpr (.binary 0 .lt l r)⟩]))
      ∧ (∀ ds nodeId op l r c, invertedBinOpOf op = Option.none →
        relationalOpInvert_try_apply ds (.fnBodyExpr (.binary nodeId op l r) c) = Option.none)
      ∧ (∀ ds nodeId tag c,
        relationalOpInvert_try_apply ds (.fnBodyExpr (.otherExpr nodeId tag) c) = Option.none)
      ∧ (∀ ds loc, (∀ e c, loc ≠ MutLocM.fnBodyExpr e c) →
        relationalOpInvert_try_apply ds loc = Option.none) := by
  refine ⟨fun _ _ _ _ _ => rfl, fun _ _ _ _ _ => rfl, fun _ _ _ _ _ => rfl,
    fun _ _ _ _ _ => rfl, ?_, fun _ _ _ _ => rfl, ?_⟩
  · intro ds nodeId op l r c hop
    simp [relationalOpInvert_try_apply, hop]
  · intro ds loc hloc
    cases loc with
    | fnBodyExpr e c => exact absurd rfl (hloc e c)
    | fnLoc t => rfl
    | fnParam p t => rfl
    | fnBodyStmt s t => rfl

/-- Witness for C9: a `<` comparison at node 5 is rewritten to `>=`, an
`==` comparison is left alone, and a non-expression location is left
alone. -/
theorem relational_op_invert_spec_witness :
    relationalOpInvert_try_apply 7
        (.fnBodyExpr (.binary 5 .lt (.otherExpr 1 0) (.otherExpr 2 0)) 9)
        = some (⟨.lt, .ge⟩,
            [⟨.replace 5, .astExpr (.binary 0 .ge (.otherExpr 1 0) (.otherExpr 2 0))⟩])
      ∧ relationalOpInvert_try_apply 7
          (.fnBodyExpr (.binary 5 .eqOp (.otherExpr 1 0) (.otherExpr 2 0)) 9) = Option.none
      ∧ relationalOpInvert_try_apply 7 (.fnLoc 3) = Option.none :=
  ⟨relational_op_invert_spec.1 7 5 (.otherExpr 1 0) (.otherExpr 2 0) 9,
   relational_op_invert_spec.2.2.2.2.1 7 5 .eqOp (.otherExpr 1 0) (.otherExpr 2 0) 9 rfl,
   relational_op_invert_spec.2.2.2.2.2.2 7 (.fnLoc 3)
     (fun e c h => MutLocM.noConfusion h)⟩

/-! ## Batching invariants -/

theorem conflicting_mutations_symm (g : MutationConflictGraph) (a b : Nat) :
    conflicting_mutations g a b = conflicting_mutations g b a := by
  unfold conflicting_mutations
  exact Bool.or_comm _ _

theorem compatible_mutant_spec {mutation : MutM} {M : MutantM} {g : MutationConflictGraph}
    {cap : Nat} (h : compatible_mutant mutation M g cap = true) :
    M.mutations.length < cap
      ∧ ∀ x ∈ M.mutations, conflicting_mutations g x.id mutation.id = false := by
  unfold compatible_mutant at h
  split_ifs at h with h1 h2
  refine ⟨Nat.lt_of_not_le h1, fun x hx => ?_⟩
  by_contra hc
  exact h2 (List.any_eq_true.mpr ⟨x, hx, by simpa using hc⟩)

theorem get?_eq_some_getD {α : Type _} (l : List α) (i : Nat) (d : α) (h : i < l.length) :
    l.get? i = some (l.getD i d) := by
  induction l generalizing i with
  | nil => simp at h
  | cons a l ih =>
      cases i with
      | zero => simp [List.getD]
      | succ n => simpa [List.getD] using ih n (by simpa using h)

theorem choose_random_mutant_some {mutation : MutM} {mutants : List MutantM}
    {g : MutationConflictGraph} {cap : Nat} {rng rng' : RngM} {i : Nat}
    (h : choose_random_mutant mutation mutants g cap rng = (some i, rng')) :
    g.isUnsafeId mutation.id = false
      ∧ ∃ M, mutants.get? i = some M ∧ compatible_mutant mutation M g cap = true := by
  unfold choose_random_mutant at h
  split_ifs at h with h1 h2
  · exact absurd (congrArg Prod.fst h) (by simp)
  · exact absurd (congrArg Prod.fst h) (by simp)
  · have hmem := chooseFromList_some_mem h
    rw [List.mem_filter] at hmem
    obtain ⟨hrange, hpred⟩ := hmem
    have hlen : i < mutants.length := List.mem_range.mp hrange
    exact ⟨by simpa using h2, mutants.getD i ⟨0, []⟩, get?_eq_some_getD _ _ _ hlen, hpred⟩

theorem findIdx?_compatible_some {mutation : MutM} {mutants : List MutantM}
    {g : MutationConflictGraph} {cap : Nat} {i : Nat}
    (h : mutants.findIdx? (fun mutant => compatible_mutant mutation mutant g cap) = some i) :
    ∃ M, mutants.get? i = some M ∧ compatible_mutant mutation M g cap = true := by
  rw [List.findIdx?_eq_some_iff_getElem] at h
  obtain ⟨hlen, hp, _⟩ := h
  exact ⟨mutants[i], by simp [List.get?_eq_getElem?, List.getElem?_eq_getElem hlen], hp⟩

theorem greedyCandidate_some {g : MutationConflictGraph} {eps : Option ℚ} {cap : Nat}
    {mutants : List MutantM} {mutation : MutM} {rng rng' : RngM} {i : Nat}
    (h : greedyCandidate g eps cap mutants mutation rng = (some i, rng')) :
    g.isUnsafeId mutation.id = false
      ∧ ∃ M, mutants.get? i = some M ∧ compatible_mutant mutation M g cap = true := by
  unfold greedyCandidate at h
  split_ifs at h with h1
  · exact absurd (congrArg Prod.fst h) (by simp)
  · cases eps with
    | none =>
        have := findIdx?_compatible_some (congrArg Prod.fst h)
        exact ⟨by simpa using h1, this⟩
    | some e =>
        simp only [genBoolR] at h
        by_cases hb : (rng.next).1 == 0
        · simp only [hb, if_true] at h
          exact choose_random_mutant_some h
        · simp only [hb, if_false] at h
          have := findIdx?_compatible_some (congrArg Prod.fst h)
          exact ⟨by simpa using h1, this⟩

/-- Common shape of one batching-loop iteration: the mutation either
joins an existing mutant it is compatible with (and then it is not
unsafe in the graph), or opens a fresh singleton mutant.  Both the
greedy and the random loop bodies have this shape. -/
def StepShape (g : MutationConflictGraph) (cap : Nat)
    (step : (List MutantM × Nat × RngM) → MutM → (List MutantM × Nat × RngM)) : Prop :=
  ∀ st mutation,
    (∃ i M, st.1.get? i = some M ∧ compatible_mutant mutation M g cap = true
        ∧ g.isUnsafeId mutation.id = false
        ∧ (step st mutation).1 =
            listModify st.1 i
              (fun mutant => { mutant with mutations := mutant.mutations ++ [mutation] }))
      ∨ (step st mutation).1 = st.1 ++ [⟨st.2.1, [mutation]⟩]

theorem greedyStep_shape (g : MutationConflictGraph) (eps : Option ℚ) (cap : Nat) :
    StepShape g cap (greedyStep g eps cap) := by
  intro st mutation
  obtain ⟨mutants, nextIdx, rng⟩ := st
  rcases hcr : greedyCandidate g eps cap mutants mutation rng with ⟨o, r'⟩
  cases o with
  | none => right; simp [greedyStep, hcr]
  | some i =>
      left
      obtain ⟨hNotUns, M, hget, hcompat⟩ := greedyCandidate_some hcr
      exact ⟨i, M, hget, hcompat, hNotUns, by simp [greedyStep, hcr]⟩

theorem randomStep_shape (g : MutationConflictGraph) (cap : Nat) :
    StepShape g cap (randomStep g cap) := by
  intro st mutation
  obtain ⟨mutants, nextIdx, rng⟩ := st
  rcases hcr : choose_random_mutant mutation mutants g cap rng with ⟨o, r'⟩
  cases o with
  | none => right; simp [randomStep, hcr]
  | some i =>
      left
      obtain ⟨hNotUns, M, hget, hcompat⟩ := choose_random_mutant_some hcr
      exact ⟨i, M, hget, hcompat, hNotUns, by simp [randomStep, hcr]⟩

/-- Internal invariant of a mutant: its mutations are pairwise
non-conflicting in the conflict graph. -/
def MutantOk (g : MutationConflictGraph) (M : MutantM) : Prop :=
  List.Pairwise (fun a b => conflicting_mutations g a.id b.id = false) M.mutations

theorem mutantOk_push {g : MutationConflictGraph} {M : MutantM} {mutation : MutM} {cap : Nat}
    (hok : MutantOk g M) (hcompat : compatible_mutant mutation M g cap = true) :
    MutantOk g { M with mutations := M.mutations ++ [mutation] } := by
  unfold MutantOk at hok ⊢
  simp only []
  rw [List.pairwise_append]
  refine ⟨hok, List.pairwise_singleton _ _, ?_⟩
  intro a ha b hb
  rw [List.mem_singleton] at hb
  subst hb
  exact (compatible_mutant_spec hcompat).2 a ha

theorem foldl_batch_pairwise {g : MutationConflictGraph} {cap : Nat}
    {step : (List MutantM × Nat × RngM) → MutM → (List MutantM × Nat × RngM)}
    (hshape : StepShape g cap step) :
    ∀ (muts : List MutM) (st : List MutantM × Nat × RngM),
      (∀ M ∈ st.1, MutantOk g M) → ∀ M ∈ (muts.foldl step st).1, MutantOk g M := by
  intro muts
  induction muts with
  | nil => intro st h; simpa using h
  | cons m rest ih =>
      intro st h
      simp only [List.foldl_cons]
      apply ih
      rcases hshape st m with ⟨i, M0, hget, hcompat, _, heq⟩ | heq
      · rw [heq, listModify_eq_of_get? _ _ _ _ hget]
        intro M hM
        rcases List.mem_append.mp hM with hM | hM
        · exact h M (List.take_subset _ _ hM)
        · rcases List.mem_cons.mp hM with rfl | hM
          · exact mutantOk_push (h M0 (List.get?_mem hget)) hcompat
          · exact h M (List.drop_subset _ _ hM)
      · rw [heq]
        intro M hM
        rcases List.mem_append.mp hM with hM | hM
        · exact h M hM
        · rw [List.mem_singleton] at hM
          subst hM
          exact List.pairwise_singleton _ _

theorem foldl_batch_perm {g : MutationConflictGraph} {cap : Nat}
    {step : (List MutantM × Nat × RngM) → MutM → (List MutantM × Nat × RngM)}
    (hshape : StepShape g cap step) :
    ∀ (muts : List MutM) (st : List MutantM × Nat × RngM),
      ((muts.foldl step st).1.flatMap (fun M => M.mutations)).Perm
        ((st.1.flatMap (fun M => M.mutations)) ++ muts) := by
  intro muts
  induction muts with
  | nil => intro st; simp
  | cons m rest ih =>
      intro st
      simp only [List.foldl_cons]
      have hstep :
          ((step st m).1.flatMap (fun M => M.mutations)).Perm
            ((st.1.flatMap (fun M => M.mutations)) ++ [m]) := by
        rcases hshape st m with ⟨i, M0, hget, _, _, heq⟩ | heq
        · rw [heq, listModify_eq_of_get? _ _ _ _ hget]
          conv_rhs => rw [list_eq_take_get_drop st.1 i M0 hget]
          simp only [List.flatMap_append, List.flatMap_cons, List.append_assoc]
          exact List.Perm.append_left _ (List.Perm.append_left _ List.perm_append_comm)
        · rw [heq]
          simp only [List.flatMap_append, List.flatMap_cons, List.flatMap_nil, List.append_nil]
          exact List.Perm.refl _
      have h1 := ih (step st m)
      have h2 := hstep.append_right rest
      have h3 : ((st.1.flatMap (fun M => M.mutations)) ++ [m]) ++ rest
          = (st.1.flatMap (fun M => M.mutations)) ++ (m :: rest) := by
        rw [List.append_assoc]
        rfl
      exact h1.trans (h3 ▸ h2)

theorem foldl_batch_cap {g : MutationConflictGraph} {cap : Nat}
    {step : (List MutantM × Nat × RngM) → MutM → (List MutantM × Nat × RngM)}
    (hshape : StepShape g cap step) (hcap : 1 ≤ cap) :
    ∀ (muts : List MutM) (st : List MutantM × Nat × RngM),
      (∀ M ∈ st.1, M.mutations.length ≤ cap) →
      ∀ M ∈ (muts.foldl step st).1, M.mutations.length ≤ cap := by
  intro muts
  induction muts with
  | nil => intro st h; simpa using h
  | cons m rest ih =>
      intro st h
      simp only [List.foldl_cons]
      apply ih
      rcases hshape st m with ⟨i, M0, hget, hcompat, _, heq⟩ | heq
      · rw [heq, listModify_eq_of_get? _ _ _ _ hget]
        intro M hM
        rcases List.mem_append.mp hM with hM | hM
        · exact h M (List.take_subset _ _ hM)
        · rcases List.mem_cons.mp hM with rfl | hM
          · have hlt := (compatible_mutant_spec hcompat).1
            simpa using hlt
          · exact h M (List.drop_subset _ _ hM)
      · rw [heq]
        intro M hM
        rcases List.mem_append.mp hM with hM | hM
        · exact h M hM
        · rw [List.mem_singleton] at hM
          subst hM
          simpa using hcap

theorem contains_iff_mem {α : Type _} [BEq α] [LawfulBEq α] {l : List α} {a : α} :
    l.contains a = true ↔ a ∈ l :=
  List.elem_iff

/-- The `unsafes` set of the generated conflict graph holds exactly the
ids of the mutations classified unsafe by `Mut::is_unsafe`. -/
theorem gmcg_unsafes_spec (ut : UnsafeTargeting) (muts : List MutM) (a : Nat) :
    (generate_mutation_conflict_graph muts ut).isUnsafeId a = true
      ↔ ∃ m ∈ muts, m.isUnsafeIn ut = true ∧ m.id = a := by
  have hmem : ∀ l : List MutM,
      (a ∈ (gmcgGo ut l).1 ↔ ∃ m ∈ l, m.isUnsafeIn ut = true ∧ m.id = a) := by
    intro l
    induction l with
    | nil => simp [gmcgGo]
    | cons m rest ih =>
        simp only [gmcgGo, List.mem_append, ih, List.mem_cons]
        constructor
        · rintro (hin | ⟨x, hx, hux, hid⟩)
          · by_cases hm : m.isUnsafeIn ut = true
            · rw [hm] at hin
              simp only [if_true, List.mem_singleton] at hin
              exact ⟨m, Or.inl rfl, hm, hin.symm⟩
            · rw [Bool.not_eq_true] at hm
              rw [hm] at hin
              simp at hin
          · exact ⟨x, Or.inr hx, hux, hid⟩
        · rintro ⟨x, hx | hx, hux, hid⟩
          · subst hx
            left
            rw [hux]
            simp [hid]
          · exact Or.inr ⟨x, hx, hux, hid⟩
  unfold generate_mutation_conflict_graph MutationConflictGraph.isUnsafeId
  simp only []
  rw [contains_iff_mem]
  exact hmem muts

/-- In the generated conflict graph an unsafe mutation conflicts with
every other mutation of the run (in some orientation). -/
theorem gmcg_unsafe_mut_conflicts (ut : UnsafeTargeting) :
    ∀ (muts : List MutM) (x y : MutM), x ∈ muts → y ∈ muts → x.isUnsafeIn ut = true →
      x.id ≠ y.id →
      conflicting_mutations (generate_mutation_conflict_graph muts ut) x.id y.id = true := by
  have hpair : ∀ (muts : List MutM) (x y : MutM), x ∈ muts → y ∈ muts →
      x.isUnsafeIn ut = true → x.id ≠ y.id →
      (x.id, y.id) ∈ (gmcgGo ut muts).2 ∨ (y.id, x.id) ∈ (gmcgGo ut muts).2 := by
    intro muts
    induction muts with
    | nil => intro x y hx; simp at hx
    | cons m rest ih =>
        intro x y hx hy hun hne
        rcases List.mem_cons.mp hx with hxm | hxr
        · rcases List.mem_cons.mp hy with hym | hyr
          · rw [hxm, hym] at hne
            exact absurd rfl hne
          · left
            simp only [gmcgGo, List.mem_append]
            refine Or.inl (List.mem_filterMap.mpr ⟨y, hyr, ?_⟩)
            rw [hxm] at hun ⊢
            simp [gmcgConflictCond, hun]
        · rcases List.mem_cons.mp hy with hym | hyr
          · right
            simp only [gmcgGo, List.mem_append]
            refine Or.inl (List.mem_filterMap.mpr ⟨x, hxr, ?_⟩)
            rw [hym]
            simp [gmcgConflictCond, hun]
          · rcases ih x y hxr hyr hun hne with h | h
            · left
              simp only [gmcgGo, List.mem_append]
              exact Or.inr h
            · right
              simp only [gmcgGo, List.mem_append]
              exact Or.inr h
  intro muts x y hx hy hun hne
  unfold conflicting_mutations generate_mutation_conflict_graph
  simp only [Bool.or_eq_true]
  rcases hpair muts x y hx hy hun hne with h | h
  · exact Or.inl (contains_iff_mem.mpr h)
  · exact Or.inr (contains_iff_mem.mpr h)

theorem mutantPairErrors_eq_nil {g : MutationConflictGraph} {mid : Nat} {l : List MutM}
    (h : List.Pairwise (fun a b => conflicting_mutations g a.id b.id = false) l) :
    mutantPairErrors g mid l = [] := by
  induction l with
  | nil => rfl
  | cons m rest ih =>
      rw [List.pairwise_cons] at h
      obtain ⟨hhead, htail⟩ := h
      show rest.filterMap _ ++ mutantPairErrors g mid rest = []
      rw [List.append_eq_nil]
      refine ⟨List.filterMap_eq_nil_iff.mpr fun o ho => ?_, ih htail⟩
      rw [hhead o ho]
      rfl

theorem validate_ok_of_pairwise {g : MutationConflictGraph} {mutants : List MutantM}
    (h : ∀ M ∈ mutants, MutantOk g M) :
    validate_mutation_batches mutants g = Except.ok () := by
  unfold validate_mutation_batches
  have hnil : mutants.flatMap (fun mutant => mutantConflictErrors g mutant) = [] :=
    List.flatMap_eq_nil_iff.mpr fun M hM => mutantPairErrors_eq_nil (h M hM)
  simp [hnil]

theorem listExtractFirst_perm {α : Type _} {p : α → Bool} :
    ∀ {l : List α} {a : α} {rest : List α},
      listExtractFirst p l = some (a, rest) → l.Perm (a :: rest) := by
  intro l
  induction l with
  | nil => intro a rest h; simp [listExtractFirst] at h
  | cons b l ih =>
      intro a rest h
      unfold listExtractFirst at h
      by_cases hb : p b
      · rw [if_pos hb] at h
        obtain ⟨rfl, rfl⟩ : b = a ∧ l = rest := by
          injection h with h'
          injection h' with h1 h2
          exact ⟨h1, h2⟩
        exact List.Perm.refl _
      · rw [if_neg hb] at h
        cases hrec : listExtractFirst p l with
        | none => rw [hrec] at h; simp at h
        | some pr =>
            rw [hrec] at h
            obtain ⟨x, l'⟩ := pr
            simp only [Option.map_some'] at h
            obtain ⟨rfl, rfl⟩ : x = a ∧ (b :: l') = rest := by
              injection h with h'
              injection h' with h1 h2
              exact ⟨h1, h2⟩
            have hperm := ih hrec
            exact (hperm.cons b).trans (List.Perm.swap _ _ _)

/-- Moving one mutation out of the mutant at `i` (whose mutations are
`mutation :: remaining` up to permutation) and accounting for it
separately preserves the overall mutation multiset. -/
theorem flatMap_update_middle_perm {mutants : List MutantM} {i : Nat} {M0 : MutantM}
    (hget : mutants.get? i = some M0) (repl : List MutM) :
    ((mutants.take i ++ { M0 with mutations := repl } :: mutants.drop (i + 1)).flatMap
        (fun M => M.mutations)).Perm
      ((mutants.take i).flatMap (fun M => M.mutations) ++ repl
        ++ (mutants.drop (i + 1)).flatMap (fun M => M.mutations)) := by
  simp [List.flatMap_append, List.append_assoc]

theorem cons_append_middle_perm {α : Type _} (m : α) (T M D : List α) :
    List.Perm (T ++ (M ++ (m :: D))) (m :: (T ++ (M ++ D))) :=
  ((List.perm_middle.symm).trans (List.Perm.append_left T List.perm_middle.symm)).symm

/-- Pushing `m` onto the mutant at a valid index adds exactly `m` to the
overall mutation multiset. -/
theorem flatMap_modify_push_perm {mutants : List MutantM} {i : Nat} {M0 : MutantM} {m : MutM}
    (hget : mutants.get? i = some M0) :
    ((listModify mutants i
        (fun mutant => { mutant with mutations := mutant.mutations ++ [m] })).flatMap
          (fun M => M.mutations)).Perm
      (m :: mutants.flatMap (fun M => M.mutations)) := by
  rw [listModify_eq_of_get? _ _ _ _ hget]
  conv_rhs => rw [list_eq_take_get_drop mutants i M0 hget]
  simp only [List.flatMap_append, List.flatMap_cons, List.append_assoc]
  exact cons_append_middle_perm m _ _ _

/-- Taking the mutation `mutation` back out of the source mutant (which
held `mutation :: remaining` up to permutation) preserves the overall
mutation multiset, whether the emptied mutant is removed or kept. -/
theorem flatMap_remove_perm {mutants : List MutantM} {oldIdx : Nat} {M0 : MutantM}
    {mutation : MutM} {remaining : List MutM}
    (hget : mutants.get? oldIdx = some M0)
    (hperm0 : M0.mutations.Perm (mutation :: remaining)) :
    (mutation ::
        (if remaining.isEmpty then mutants.eraseIdx oldIdx
         else listModify mutants oldIdx
           (fun mu => { mu with mutations := remaining })).flatMap
          (fun M => M.mutations)).Perm
      (mutants.flatMap (fun M => M.mutations)) := by
  have hsplit :
      mutants.flatMap (fun M => M.mutations)
        = (mutants.take oldIdx).flatMap (fun M => M.mutations)
          ++ (M0.mutations ++ (mutants.drop (oldIdx + 1)).flatMap (fun M => M.mutations)) := by
    conv_lhs => rw [list_eq_take_get_drop mutants oldIdx M0 hget]
    simp [List.flatMap_append, List.append_assoc]
  by_cases hrem : remaining.isEmpty = true
  · rw [if_pos hrem, hsplit, List.eraseIdx_eq_take_drop_succ]
    have hremnil : remaining = [] := List.isEmpty_iff.mp hrem
    subst hremnil
    simp only [List.flatMap_append]
    refine (List.perm_middle.symm).trans (List.Perm.append_left _ ?_)
    exact (hperm0.symm).append_right _
  · rw [if_neg hrem, listModify_eq_of_get? _ _ _ _ hget, hsplit]
    simp only [List.flatMap_append, List.flatMap_cons, List.append_assoc]
    refine (List.perm_middle.symm).trans (List.Perm.append_left _ ?_)
    exact (hperm0.symm).append_right _

theorem stateChangeApply_flatMap_perm {sc : StateChangeM} {mutants out : List MutantM}
    (h : stateChangeApply sc mutants = some out) :
    (out.flatMap (fun M => M.mutations)).Perm (mutants.flatMap (fun M => M.mutations)) := by
  unfold stateChangeApply at h
  rw [Option.bind_eq_some] at h
  obtain ⟨oldIdx, hfi, h⟩ := h
  rw [Option.bind_eq_some] at h
  obtain ⟨pr, hex, h⟩ := h
  rw [Option.map_eq_some'] at h
  obtain ⟨newIdx, hfi2, h⟩ := h
  subst h
  have hlen : oldIdx < mutants.length := by
    rw [List.findIdx?_eq_some_iff_getElem] at hfi
    exact hfi.1
  have hget : mutants.get? oldIdx = some (mutants.getD oldIdx ⟨0, []⟩) :=
    get?_eq_some_getD _ _ _ hlen
  have hperm0 := listExtractFirst_perm hex
  set mutants1 :=
    if pr.2.isEmpty then mutants.eraseIdx oldIdx
    else listModify mutants oldIdx (fun m => { m with mutations := pr.2 }) with hM1
  have hlen2 : newIdx < mutants1.length := by
    rw [List.findIdx?_eq_some_iff_getElem] at hfi2
    exact hfi2.1
  have hget2 : mutants1.get? newIdx = some (mutants1.getD newIdx ⟨0, []⟩) :=
    get?_eq_some_getD _ _ _ hlen2
  have h1 := flatMap_modify_push_perm (m := pr.1) hget2
  have h2 := flatMap_remove_perm hget hperm0
  exact h1.trans h2

/-- Unsafe-isolation invariant through a batching fold: every produced
mutant holds only mutations of the run, and any mutant touching an
unsafe id stays a singleton. -/
theorem foldl_batch_unsafe_isolated {cap : Nat} (muts0 : List MutM) (ut : UnsafeTargeting)
    {step : (List MutantM × Nat × RngM) → MutM → (List MutantM × Nat × RngM)}
    (hshape : StepShape (generate_mutation_conflict_graph muts0 ut) cap step) :
    ∀ (muts : List MutM) (st : List MutantM × Nat × RngM),
      (∀ m ∈ muts, m ∈ muts0) →
      (∀ M ∈ st.1, (∀ x ∈ M.mutations, x ∈ muts0)
        ∧ ((∃ u ∈ M.mutations,
              (generate_mutation_conflict_graph muts0 ut).isUnsafeId u.id = true) →
            M.mutations.length = 1)) →
      ∀ M ∈ (muts.foldl step st).1,
        (∀ x ∈ M.mutations, x ∈ muts0)
          ∧ ((∃ u ∈ M.mutations,
                (generate_mutation_conflict_graph muts0 ut).isUnsafeId u.id = true) →
              M.mutations.length = 1) := by
  intro muts
  induction muts with
  | nil => intro st _ h; simpa using h
  | cons m rest ih =>
      intro st hmem h
      simp only [List.foldl_cons]
      refine ih (step st m) (fun x hx => hmem x (List.mem_cons_of_mem _ hx)) ?_
      have hm0 : m ∈ muts0 := hmem m (List.mem_cons_self _ _)
      rcases hshape st m with ⟨i, M0, hget, hcompat, hNotUns, heq⟩ | heq
      · rw [heq, listModify_eq_of_get? _ _ _ _ hget]
        intro M hM
        rcases List.mem_append.mp hM with hM | hM
        · exact h M (List.take_subset _ _ hM)
        · rcases List.mem_cons.mp hM with rfl | hM
          · obtain ⟨hsub0, _⟩ := h M0 (List.get?_mem hget)
            constructor
            · intro x hx
              simp only [List.mem_append, List.mem_singleton] at hx
              rcases hx with hx | rfl
              · exact hsub0 x hx
              · exact hm0
            · rintro ⟨u, hu, huns⟩
              exfalso
              simp only [List.mem_append, List.mem_singleton] at hu
              rcases hu with hu | rfl
              · -- an unsafe id already sat in M0, yet m was found compatible
                obtain ⟨w, hw0, hwu, hwid⟩ := (gmcg_unsafes_spec ut muts0 u.id).mp huns
                have hmid : w.id ≠ m.id := by
                  intro hcontra
                  have hmu : (generate_mutation_conflict_graph muts0 ut).isUnsafeId m.id = true :=
                    (gmcg_unsafes_spec ut muts0 m.id).mpr ⟨w, hw0, hwu, hcontra⟩
                  rw [hNotUns] at hmu
                  exact Bool.false_ne_true hmu
                have hconf := gmcg_unsafe_mut_conflicts ut muts0 w m hw0 hm0 hwu hmid
                have hnoconf := (compatible_mutant_spec hcompat).2 u hu
                rw [← hwid] at hnoconf
                rw [hnoconf] at hconf
                exact Bool.false_ne_true hconf
              · -- the placed mutation itself is not unsafe
                rw [hNotUns] at huns
                exact Bool.false_ne_true huns
          · exact h M (List.drop_subset _ _ hM)
      · rw [heq]
        intro M hM
        rcases List.mem_append.mp hM with hM | hM
        · exact h M hM
        · rw [List.mem_singleton] at hM
          subst hM
          exact ⟨fun x hx => by
            rw [List.mem_singleton] at hx
            subst hx
            exact hm0, fun _ => rfl⟩

/-! ## Claim theorems for the batching engine -/

/-- Concrete sample data for witnesses: a safe mutation with the given
id, an unsafe-flagged one, and a zero rng stream. -/
def mutW (i : Nat) : MutM := ⟨i, ⟨[], Unsafety.none⟩, false, []⟩

def mutUnsafeFlaggedW : MutM := ⟨1, ⟨[], Unsafety.none⟩, true, []⟩

def rngW : RngM := ⟨fun _ => 0, 0⟩

/-- C1: for every mutation list and the conflict graph generated from
it, every mutant produced by `batch_mutations_greedy` (any processing
order `L`, epsilon and rng) or `batch_mutations_random` holds pairwise
non-conflicting mutations, and `validate_mutation_batches` accepts both
results. -/
theorem batching_no_conflicting_mutations_in_mutant
    (muts L : List MutM) (ut : UnsafeTargeting) (eps : Option ℚ) (rng rng2 : RngM) (cap : Nat) :
    (∀ M ∈ batch_mutations_greedy L (generate_mutation_conflict_graph muts ut) eps rng cap,
        List.Pairwise
          (fun a b =>
            conflicting_mutations (generate_mutation_conflict_graph muts ut) a.id b.id = false)
          M.mutations)
      ∧ validate_mutation_batches
          (batch_mutations_greedy L (generate_mutation_conflict_graph muts ut) eps rng cap)
          (generate_mutation_conflict_graph muts ut) = Except.ok ()
      ∧ (∀ M ∈ batch_mutations_random L (generate_mutation_conflict_graph muts ut) cap rng2,
          List.Pairwise
            (fun a b =>
              conflicting_mutations (generate_mutation_conflict_graph muts ut) a.id b.id = false)
            M.mutations)
      ∧ validate_mutation_batches
          (batch_mutations_random L (generate_mutation_conflict_graph muts ut) cap rng2)
          (generate_mutation_conflict_graph muts ut) = Except.ok () := by
  have hg := foldl_batch_pairwise
    (greedyStep_shape (generate_mutation_conflict_graph muts ut) eps cap) L ([], 1, rng)
    (by simp)
  have hr := foldl_batch_pairwise
    (randomStep_shape (generate_mutation_conflict_graph muts ut) cap) L ([], 1, rng2)
    (by simp)
  exact ⟨hg, validate_ok_of_pairwise hg, hr, validate_ok_of_pairwise hr⟩

/-- C3: both batching algorithms output exactly the input mutation
multiset — no mutation is lost or duplicated — and every successfully
applied simulated-annealing `StateChange` preserves that multiset. -/
theorem batching_preserves_mutation_multiset
    (L : List MutM) (g : MutationConflictGraph) (eps : Option ℚ) (rng rng2 : RngM) (cap : Nat) :
    ((batch_mutations_greedy L g eps rng cap).flatMap (fun M => M.mutations)).Perm L
      ∧ ((batch_mutations_random L g cap rng2).flatMap (fun M => M.mutations)).Perm L
      ∧ ∀ (sc : StateChangeM) (mutants out : List MutantM),
          stateChangeApply sc mutants = some out →
          (out.flatMap (fun M => M.mutations)).Perm
            (mutants.flatMap (fun M => M.mutations)) := by
  refine ⟨?_, ?_, fun sc mutants out h => stateChangeApply_flatMap_perm h⟩
  · simpa using foldl_batch_perm (greedyStep_shape g eps cap) L ([], 1, rng)
  · simpa using foldl_batch_perm (randomStep_shape g cap) L ([], 1, rng2)

/-- Witness for C3: a concrete annealing move (mutation 12 from mutant 1
to mutant 2) succeeds and keeps the mutation multiset. -/
theorem batching_preserves_mutation_multiset_witness :
    stateChangeApply ⟨12, 1, 2⟩ [⟨1, [mutW 11, mutW 12]⟩, ⟨2, [mutW 13]⟩]
        = some [⟨1, [mutW 11]⟩, ⟨2, [mutW 13, mutW 12]⟩]
      ∧ (([⟨1, [mutW 11]⟩, ⟨2, [mutW 13, mutW 12]⟩] : List MutantM).flatMap
            (fun M => M.mutations)).Perm
          (([⟨1, [mutW 11, mutW 12]⟩, ⟨2, [mutW 13]⟩] : List MutantM).flatMap
            (fun M => M.mutations)) :=
  ⟨by decide,
   (batching_preserves_mutation_multiset [] ⟨0, [], []⟩ Option.none rngW rngW 0).2.2
     ⟨12, 1, 2⟩ _ _ (by decide)⟩

/-- C8 (amended): for every cap `>= 1`, every mutant produced by either
batching algorithm holds at most `cap` mutations.  (The claim's
"including 0" fails: safe mutations still open singleton mutants of
size 1 when the cap is 0 — see the counterexample.) -/
theorem batching_cap_respected
    (muts L : List MutM) (ut : UnsafeTargeting) (eps : Option ℚ) (rng rng2 : RngM) (cap : Nat)
    (hcap : 1 ≤ cap) :
    (∀ M ∈ batch_mutations_greedy L (generate_mutation_conflict_graph muts ut) eps rng cap,
        M.mutations.length ≤ cap)
      ∧ ∀ M ∈ batch_mutations_random L (generate_mutation_conflict_graph muts ut) cap rng2,
          M.mutations.length ≤ cap :=
  ⟨foldl_batch_cap (greedyStep_shape _ eps cap) hcap L ([], 1, rng) (by simp),
   foldl_batch_cap (randomStep_shape _ cap) hcap L ([], 1, rng2) (by simp)⟩

/-- Witness for C8 at cap 2 on a two-mutation run. -/
theorem batching_cap_respected_witness :
    (1 : Nat) ≤ 2
      ∧ (∀ M ∈ batch_mutations_greedy [mutW 1, mutW 2]
            (generate_mutation_conflict_graph [mutW 1, mutW 2] UnsafeTargeting.all)
            Option.none rngW 2,
          M.mutations.length ≤ 2)
      ∧ ∀ M ∈ batch_mutations_random [mutW 1, mutW 2]
            (generate_mutation_conflict_graph [mutW 1, mutW 2] UnsafeTargeting.all)
            2 rngW,
          M.mutations.length ≤ 2 :=
  ⟨by decide,
   (batching_cap_respected [mutW 1, mutW 2] [mutW 1, mutW 2] UnsafeTargeting.all
     Option.none rngW rngW 2 (by decide)).1,
   (batching_cap_respected [mutW 1, mutW 2] [mutW 1, mutW 2] UnsafeTargeting.all
     Option.none rngW rngW 2 (by decide)).2⟩

/-- C8 counterexample: with `mutant_max_mutations_count = 0` the greedy
batcher still emits a (non-unsafe) singleton mutant of size 1 > 0, so
the cap bound is violated at cap 0. -/
theorem batching_cap_zero_counterexample :
    ∃ M ∈ batch_mutations_greedy [mutW 1]
        (generate_mutation_conflict_graph [mutW 1] UnsafeTargeting.all)
        Option.none rngW 0,
      (∀ x ∈ M.mutations,
          (generate_mutation_conflict_graph [mutW 1] UnsafeTargeting.all).isUnsafeId x.id
            = false)
        ∧ ¬(M.mutations.length ≤ 0) := by
  refine ⟨⟨1, [mutW 1]⟩, by decide, ?_, by decide⟩
  intro x hx
  rw [List.mem_singleton] at hx
  subst hx
  decide

/-- C2: with the conflict graph generated from the run's mutation list,
the graph's `unsafes` set is exactly the ids classified unsafe by
`Mut::is_unsafe` under the policy, and any mutant produced by greedy or
random batching (of any permutation `L` of the list) that contains an
unsafe mutation is a singleton. -/
theorem batching_unsafe_isolation
    (muts L : List MutM) (ut : UnsafeTargeting) (eps : Option ℚ) (rng rng2 : RngM) (cap : Nat)
    (hL : L.Perm muts) :
    (∀ a, (generate_mutation_conflict_graph muts ut).isUnsafeId a = true
        ↔ ∃ m ∈ muts, m.isUnsafeIn ut = true ∧ m.id = a)
      ∧ (∀ M ∈ batch_mutations_greedy L (generate_mutation_conflict_graph muts ut) eps rng cap,
          (∃ u ∈ M.mutations,
            (generate_mutation_conflict_graph muts ut).isUnsafeId u.id = true) →
          M.mutations.length = 1)
      ∧ ∀ M ∈ batch_mutations_random L (generate_mutation_conflict_graph muts ut) cap rng2,
          (∃ u ∈ M.mutations,
            (generate_mutation_conflict_graph muts ut).isUnsafeId u.id = true) →
          M.mutations.length = 1 := by
  have hmem : ∀ m ∈ L, m ∈ muts := fun m hm => hL.mem_iff.mp hm
  refine ⟨gmcg_unsafes_spec ut muts, fun M hM => ?_, fun M hM => ?_⟩
  · exact ((foldl_batch_unsafe_isolated muts ut (greedyStep_shape _ eps cap) L ([], 1, rng)
      hmem (by simp)) M hM).2
  · exact ((foldl_batch_unsafe_isolated muts ut (randomStep_shape _ cap) L ([], 1, rng2)
      hmem (by simp)) M hM).2

/-- Witness for C2: a run with one unsafe-flagged and one safe mutation;
any mutant touching the unsafe one is a singleton. -/
theorem batching_unsafe_isolation_witness :
    ([mutUnsafeFlaggedW, mutW 2] : List MutM).Perm [mutUnsafeFlaggedW, mutW 2]
      ∧ ∀ M ∈ batch_mutations_greedy [mutUnsafeFlaggedW, mutW 2]
            (generate_mutation_conflict_graph [mutUnsafeFlaggedW, mutW 2] UnsafeTargeting.all)
            Option.none rngW 4,
          (∃ u ∈ M.mutations,
            (generate_mutation_conflict_graph [mutUnsafeFlaggedW, mutW 2]
              UnsafeTargeting.all).isUnsafeId u.id = true) →
          M.mutations.length = 1 :=
  ⟨List.Perm.refl _,
   (batching_unsafe_isolation [mutUnsafeFlaggedW, mutW 2] [mutUnsafeFlaggedW, mutW 2]
     UnsafeTargeting.all Option.none rngW rngW 4 (List.Perm.refl _)).2.1⟩

/-! ## Reachability: lookup helpers and merge-step lemmas -/

def lookupTarget (targets : TargetsM) (L : Nat) : Option TargetM :=
  alistLookup targets L

def lookupEPA (targets : TargetsM) (L t : Nat) : Option EPAm :=
  (alistLookup targets L).bind (fun tgt => alistLookup tgt.reachableFrom t)

theorem optRankS_le_maxOptS_right (a b : Option USource) :
    optRankS b ≤ optRankS (maxOptS a b) := by
  unfold maxOptS
  split_ifs with h
  · exact Nat.le_refl _
  · exact Nat.le_of_lt (Nat.lt_of_not_le h)

theorem rankU_le_maxU_right (a b : Unsafety) :
    b.rankU ≤ (Unsafety.maxU a b).rankU := by
  unfold Unsafety.maxU
  split_ifs with h
  · exact Nat.le_refl _
  · exact Nat.le_of_lt (Nat.lt_of_not_le h)

theorem mergePath_distance (d : Nat) (tgt : TargetM) (tu : Nat × Option USource) :
    (mergePath d tgt tu).distance = tgt.distance ∧ (mergePath d tgt tu).defId = tgt.defId := by
  unfold mergePath
  exact ⟨rfl, rfl⟩

theorem mergePath_unsafety (d : Nat) (tgt : TargetM) (tu : Nat × Option USource) :
    tgt.unsafety.rankU ≤ (mergePath d tgt tu).unsafety.rankU := by
  unfold mergePath
  exact rankU_le_maxU_right _ _

theorem mergePath_lookup_preserved (d : Nat) (tgt : TargetM) (tu : Nat × Option USource)
    (t : Nat) {ep : EPAm} (h : alistLookup tgt.reachableFrom t = some ep) :
    ∃ ep', alistLookup (mergePath d tgt tu).reachableFrom t = some ep'
      ∧ ep'.distance = ep.distance
      ∧ optRankS ep.unsafeCallPath ≤ optRankS ep'.unsafeCallPath := by
  unfold mergePath
  by_cases ht : tu.1 = t
  · subst ht
    rw [alistLookup_update_self, alistLookup_orInsert_self, h]
    exact ⟨_, rfl, rfl, optRankS_le_maxOptS_right _ _⟩
  · rw [alistLookup_update_ne _ _ _ _ (fun hcontra => ht hcontra.symm),
      alistLookup_orInsert_ne _ _ _ _ (fun hcontra => ht hcontra.symm), h]
    exact ⟨ep, rfl, rfl, Nat.le_refl _⟩

theorem mergePath_lookup_created (d : Nat) (tgt : TargetM) (tu : Nat × Option USource)
    (h : alistLookup tgt.reachableFrom tu.1 = none) :
    ∃ ep', alistLookup (mergePath d tgt tu).reachableFrom tu.1 = some ep'
      ∧ ep'.distance = d := by
  unfold mergePath
  rw [alistLookup_update_self, alistLookup_orInsert_self, h]
  exact ⟨_, rfl, rfl⟩

theorem mergePath_lookup_none (d : Nat) (tgt : TargetM) (tu : Nat × Option USource)
    (t : Nat) (h : alistLookup tgt.reachableFrom t = none) (ht : tu.1 ≠ t) :
    alistLookup (mergePath d tgt tu).reachableFrom t = none := by
  unfold mergePath
  rw [alistLookup_update_ne _ _ _ _ (fun hcontra => ht hcontra.symm),
    alistLookup_orInsert_ne _ _ _ _ (fun hcontra => ht hcontra.symm), h]

/-! The `for (test, unsafety) in call_paths` fold over one target. -/

theorem mergeFold_distance (d : Nat) (cp : CallPaths) :
    ∀ tgt : TargetM, (cp.foldl (mergePath d) tgt).distance = tgt.distance := by
  induction cp with
  | nil => intro tgt; rfl
  | cons tu rest ih =>
      intro tgt
      rw [List.foldl_cons, ih]
      exact (mergePath_distance d tgt tu).1

theorem mergeFold_unsafety (d : Nat) (cp : CallPaths) :
    ∀ tgt : TargetM, tgt.unsafety.rankU ≤ ((cp.foldl (mergePath d) tgt)).unsafety.rankU := by
  induction cp with
  | nil => intro tgt; exact Nat.le_refl _
  | cons tu rest ih =>
      intro tgt
      rw [List.foldl_cons]
      exact Nat.le_trans (mergePath_unsafety d tgt tu) (ih _)

theorem mergeFold_lookup_preserved (d : Nat) (cp : CallPaths) :
    ∀ (tgt : TargetM) (t : Nat) (ep : EPAm),
      alistLookup tgt.reachableFrom t = some ep →
      ∃ ep', alistLookup (cp.foldl (mergePath d) tgt).reachableFrom t = some ep'
        ∧ ep'.distance = ep.distance
        ∧ optRankS ep.unsafeCallPath ≤ optRankS ep'.unsafeCallPath := by
  induction cp with
  | nil => intro tgt t ep h; exact ⟨ep, h, rfl, Nat.le_refl _⟩
  | cons tu rest ih =>
      intro tgt t ep h
      rw [List.foldl_cons]
      obtain ⟨ep1, h1, hd1, hr1⟩ := mergePath_lookup_preserved d tgt tu t h
      obtain ⟨ep2, h2, hd2, hr2⟩ := ih _ t ep1 h1
      exact ⟨ep2, h2, by rw [hd2, hd1], Nat.le_trans hr1 hr2⟩

theorem mergeFold_lookup_created (d : Nat) (cp : CallPaths) :
    ∀ (tgt : TargetM) (t : Nat),
      alistLookup tgt.reachableFrom t = none →
      (alistLookup cp t).isSome = true →
      ∃ ep', alistLookup (cp.foldl (mergePath d) tgt).reachableFrom t = some ep'
        ∧ ep'.distance = d := by
  induction cp with
  | nil => intro tgt t _ hcp; simp [alistLookup] at hcp
  | cons tu rest ih =>
      intro tgt t h hcp
      rw [List.foldl_cons]
      by_cases ht : tu.1 = t
      · subst ht
        obtain ⟨ep1, h1, hd1⟩ := mergePath_lookup_created d tgt tu h
        obtain ⟨ep2, h2, hd2, _⟩ := mergeFold_lookup_preserved d rest _ tu.1 ep1 h1
        exact ⟨ep2, h2, by rw [hd2, hd1]⟩
      · have h' := mergePath_lookup_none d tgt tu t h ht
        have hcp' : (alistLookup rest t).isSome = true := by
          unfold alistLookup at hcp
          rw [if_neg ht] at hcp
          exact hcp
        exact ih _ t h' hcp'

theorem mergeFold_lookup_none (d : Nat) (cp : CallPaths) :
    ∀ (tgt : TargetM) (t : Nat),
      alistLookup tgt.reachableFrom t = none →
      alistLookup cp t = none →
      alistLookup (cp.foldl (mergePath d) tgt).reachableFrom t = none := by
  induction cp with
  | nil => intro tgt t h _; exact h
  | cons tu rest ih =>
      intro tgt t h hcp
      rw [List.foldl_cons]
      unfold alistLookup at hcp
      by_cases ht : tu.1 = t
      · rw [if_pos ht] at hcp
        cases hcp
      · rw [if_neg ht] at hcp
        exact ih _ t (mergePath_lookup_none d tgt tu t h ht) hcp

/-! Lemmas about `mergeTargetEntry` (the `targets.entry(..).or_insert_with`
block plus the per-test merge loop). -/

theorem mergeTargetEntry_lookup_ne (env : ReachEnv) (d L L' : Nat) (cp : CallPaths)
    (targets : TargetsM) (hne : L' ≠ L) :
    lookupTarget (mergeTargetEntry env d L cp targets) L' = lookupTarget targets L' := by
  unfold mergeTargetEntry lookupTarget
  rw [alistLookup_update_ne _ _ _ _ hne, alistLookup_orInsert_ne _ _ _ _ hne]

theorem mergeTargetEntry_lookup_self (env : ReachEnv) (d L : Nat) (cp : CallPaths)
    (targets : TargetsM) :
    lookupTarget (mergeTargetEntry env d L cp targets) L
      = some (cp.foldl (mergePath d)
          ((alistLookup targets L).getD
            { defId := L, unsafety := env.itemUnsafety L, reachableFrom := [], distance := d })) := by
  unfold mergeTargetEntry lookupTarget
  rw [alistLookup_update_self, alistLookup_orInsert_self]
  rfl

theorem mergeTargetEntry_epa_preserved (env : ReachEnv) (d L : Nat) (cp : CallPaths)
    (targets : TargetsM) (L' t : Nat) {ep : EPAm}
    (h : lookupEPA targets L' t = some ep) :
    ∃ ep', lookupEPA (mergeTargetEntry env d L cp targets) L' t = some ep'
      ∧ ep'.distance = ep.distance
      ∧ optRankS ep.unsafeCallPath ≤ optRankS ep'.unsafeCallPath := by
  by_cases hL : L' = L
  · subst hL
    unfold lookupEPA at h
    cases htg : alistLookup targets L' with
    | none => rw [htg] at h; cases h
    | some tgt =>
        rw [htg] at h
        simp only [Option.some_bind] at h
        unfold lookupEPA
        rw [show alistLookup (mergeTargetEntry env d L' cp targets) L'
            = lookupTarget (mergeTargetEntry env d L' cp targets) L' from rfl,
          mergeTargetEntry_lookup_self, htg]
        simp only [Option.getD_some, Option.some_bind]
        exact mergeFold_lookup_preserved d cp tgt t ep h
  · refine ⟨ep, ?_, rfl, Nat.le_refl _⟩
    unfold lookupEPA at h ⊢
    rw [show alistLookup (mergeTargetEntry env d L cp targets) L'
        = lookupTarget (mergeTargetEntry env d L cp targets) L' from rfl,
      mergeTargetEntry_lookup_ne env d L L' cp targets hL]
    exact h

theorem mergeTargetEntry_epa_created (env : ReachEnv) (d L : Nat) (cp : CallPaths)
    (targets : TargetsM) (t : Nat)
    (h : lookupEPA targets L t = none) (hcp : (alistLookup cp t).isSome = true) :
    ∃ ep', lookupEPA (mergeTargetEntry env d L cp targets) L t = some ep'
      ∧ ep'.distance = d := by
  unfold lookupEPA at h ⊢
  rw [show alistLookup (mergeTargetEntry env d L cp targets) L
      = lookupTarget (mergeTargetEntry env d L cp targets) L from rfl,
    mergeTargetEntry_lookup_self]
  cases htg : alistLookup targets L with
  | none =>
      simp only [htg, Option.getD_none, Option.some_bind]
      exact mergeFold_lookup_created d cp _ t (by simp [alistLookup]) hcp
  | some tgt =>
      rw [htg] at h
      simp only [Option.some_bind] at h
      simp only [htg, Option.getD_some, Option.some_bind]
      exact mergeFold_lookup_created d cp tgt t h hcp

theorem mergeTargetEntry_epa_none (env : ReachEnv) (d L : Nat) (cp : CallPaths)
    (targets : TargetsM) (t : Nat)
    (h : lookupEPA targets L t = none) (hcp : alistLookup cp t = none) :
    lookupEPA (mergeTargetEntry env d L cp targets) L t = none := by
  unfold lookupEPA at h ⊢
  rw [show alistLookup (mergeTargetEntry env d L cp targets) L
      = lookupTarget (mergeTargetEntry env d L cp targets) L from rfl,
    mergeTargetEntry_lookup_self]
  cases htg : alistLookup targets L with
  | none =>
      simp only [htg, Option.getD_none, Option.some_bind]
      exact mergeFold_lookup_none d cp _ t (by simp [alistLookup]) hcp
  | some tgt =>
      rw [htg] at h
      simp only [Option.some_bind] at h
      simp only [htg, Option.getD_some, Option.some_bind]
      exact mergeFold_lookup_none d cp tgt t h hcp

theorem mergeTargetEntry_target_preserved (env : ReachEnv) (d L : Nat) (cp : CallPaths)
    (targets : TargetsM) (L' : Nat) {tgt : TargetM}
    (h : lookupTarget targets L' = some tgt) :
    ∃ tgt', lookupTarget (mergeTargetEntry env d L cp targets) L' = some tgt'
      ∧ tgt'.distance = tgt.distance
      ∧ tgt.unsafety.rankU ≤ tgt'.unsafety.rankU := by
  have h' : alistLookup targets L' = some tgt := h
  by_cases hL : L' = L
  · subst hL
    rw [mergeTargetEntry_lookup_self, h']
    simp only [Option.getD_some]
    exact ⟨_, rfl, mergeFold_distance d cp tgt, mergeFold_unsafety d cp tgt⟩
  · rw [mergeTargetEntry_lookup_ne env d L L' cp targets hL, h]
    exact ⟨tgt, rfl, rfl, Nat.le_refl _⟩

/-! Lemmas about one round of target recording. -/

/-- A frontier entry's discovery of `(L, t)` within a single frontier:
the entry resolves to local def `L`, passes the recording conditions,
and test `t` is on one of its call paths. -/
def DiscRound (env : ReachEnv) (fr : FrontierM) (L t : Nat) : Prop :=
  ∃ e ∈ fr, mergeCond env e.1 L ∧ (alistLookup e.2 t).isSome = true

theorem processEntryTargets_cases (env : ReachEnv) (d : Nat) (targets : TargetsM)
    (e : Nat × CallPaths) :
    processEntryTargets env d targets e = targets
      ∨ ∃ L₀, mergeCond env e.1 L₀
          ∧ processEntryTargets env d targets e = mergeTargetEntry env d L₀ e.2 targets := by
  unfold processEntryTargets
  by_cases hc : env.isConstFn e.1 = true
  · left; rw [if_pos hc]
  · have hc' : env.isConstFn e.1 = false := by
      revert hc; cases env.isConstFn e.1 <;> simp
    rw [if_neg hc]
    cases hl : env.localDefId e.1 with
    | none => left; rfl
    | some L₀ =>
        by_cases hb : env.hasBody L₀ = true
        · by_cases hs : (!env.skip L₀ && env.findDef L₀) = true
          · right
            have hs' := hs
            rw [Bool.and_eq_true] at hs'
            obtain ⟨hns, hf⟩ := hs'
            have hskip : env.skip L₀ = false := by
              revert hns; cases env.skip L₀ <;> simp
            refine ⟨L₀, ⟨hc', hl, hb, hskip, hf⟩, ?_⟩
            simp [hb, hs]
          · left; simp [hb, hs]
        · left; simp [hb]

theorem processEntryTargets_of_mergeCond (env : ReachEnv) (d : Nat) (targets : TargetsM)
    (e : Nat × CallPaths) (L : Nat) (hm : mergeCond env e.1 L) :
    processEntryTargets env d targets e = mergeTargetEntry env d L e.2 targets := by
  obtain ⟨hc, hl, hb, hs, hf⟩ := hm
  unfold processEntryTargets
  rw [hl]
  simp [hc, hb, hs, hf]

theorem roundFold_epa_preserved (env : ReachEnv) (d : Nat) (fr : FrontierM) :
    ∀ (targets : TargetsM) (L t : Nat) (ep : EPAm),
      lookupEPA targets L t = some ep →
      ∃ ep', lookupEPA (fr.foldl (processEntryTargets env d) targets) L t = some ep'
        ∧ ep'.distance = ep.distance
        ∧ optRankS ep.unsafeCallPath ≤ optRankS ep'.unsafeCallPath := by
  induction fr with
  | nil => exact fun targets L t ep h => ⟨ep, h, rfl, Nat.le_refl _⟩
  | cons e rest ih =>
      intro targets L t ep h
      rw [List.foldl_cons]
      rcases processEntryTargets_cases env d targets e with heq | ⟨L₀, _, heq⟩
      · rw [heq]; exact ih targets L t ep h
      · rw [heq]
        obtain ⟨ep1, h1, hd1, hr1⟩ := mergeTargetEntry_epa_preserved env d L₀ e.2 targets L t h
        obtain ⟨ep2, h2, hd2, hr2⟩ := ih _ L t ep1 h1
        exact ⟨ep2, h2, by rw [hd2, hd1], Nat.le_trans hr1 hr2⟩

theorem roundFold_target_preserved (env : ReachEnv) (d : Nat) (fr : FrontierM) :
    ∀ (targets : TargetsM) (L : Nat) (tgt : TargetM),
      lookupTarget targets L = some tgt →
      ∃ tgt', lookupTarget (fr.foldl (processEntryTargets env d) targets) L = some tgt'
        ∧ tgt'.distance = tgt.distance
        ∧ tgt.unsafety.rankU ≤ tgt'.unsafety.rankU := by
  induction fr with
  | nil => exact fun targets L tgt h => ⟨tgt, h, rfl, Nat.le_refl _⟩
  | cons e rest ih =>
      intro targets L tgt h
      rw [List.foldl_cons]
      rcases processEntryTargets_cases env d targets e with heq | ⟨L₀, _, heq⟩
      · rw [heq]; exact ih targets L tgt h
      · rw [heq]
        obtain ⟨tgt1, h1, hd1, hr1⟩ := mergeTargetEntry_target_preserved env d L₀ e.2 targets L h
        obtain ⟨tgt2, h2, hd2, hr2⟩ := ih _ L tgt1 h1
        exact ⟨tgt2, h2, by rw [hd2, hd1], Nat.le_trans hr1 hr2⟩

theorem roundFold_epa_none (env : ReachEnv) (d : Nat) (fr : FrontierM) :
    ∀ (targets : TargetsM) (L t : Nat),
      lookupEPA targets L t = none →
      ¬DiscRound env fr L t →
      lookupEPA (fr.foldl (processEntryTargets env d) targets) L t = none := by
  induction fr with
  | nil => exact fun targets L t h _ => h
  | cons e rest ih =>
      intro targets L t h hnd
      have hnd_head : ¬(mergeCond env e.1 L ∧ (alistLookup e.2 t).isSome = true) :=
        fun hh => hnd ⟨e, List.mem_cons_self _ _, hh⟩
      have hnd_rest : ¬DiscRound env rest L t :=
        fun ⟨e', he', hh⟩ => hnd ⟨e', List.mem_cons_of_mem _ he', hh⟩
      rw [List.foldl_cons]
      rcases processEntryTargets_cases env d targets e with heq | ⟨L₀, hm, heq⟩
      · rw [heq]; exact ih targets L t h hnd_rest
      · rw [heq]
        by_cases hL : L₀ = L
        · subst hL
          cases hcp : alistLookup e.2 t with
          | some u =>
              exact absurd ⟨hm, by rw [hcp]; rfl⟩ hnd_head
          | none =>
              exact ih _ _ t (mergeTargetEntry_epa_none env d _ e.2 targets t h hcp) hnd_rest
        · refine ih _ L t ?_ hnd_rest
          unfold lookupEPA at h ⊢
          rw [show alistLookup (mergeTargetEntry env d L₀ e.2 targets) L
              = lookupTarget (mergeTargetEntry env d L₀ e.2 targets) L from rfl,
            mergeTargetEntry_lookup_ne env d L₀ L e.2 targets (fun hcontra => hL hcontra.symm)]
          exact h

theorem roundFold_epa_created (env : ReachEnv) (d : Nat) (fr : FrontierM) :
    ∀ (targets : TargetsM) (L t : Nat),
      lookupEPA targets L t = none →
      DiscRound env fr L t →
      ∃ ep', lookupEPA (fr.foldl (processEntryTargets env d) targets) L t = some ep'
        ∧ ep'.distance = d := by
  induction fr with
  | nil => rintro targets L t _ ⟨e, he, _⟩; simp at he
  | cons e rest ih =>
      rintro targets L t h ⟨e', he', hm', hcp'⟩
      rw [List.foldl_cons]
      rcases List.mem_cons.mp he' with he'e | he'r
      · subst he'e
        rw [processEntryTargets_of_mergeCond env d targets e' L hm']
        obtain ⟨ep1, h1, hd1⟩ := mergeTargetEntry_epa_created env d L e'.2 targets t h hcp'
        obtain ⟨ep2, h2, hd2, _⟩ := roundFold_epa_preserved env d rest _ L t ep1 h1
        exact ⟨ep2, h2, by rw [hd2, hd1]⟩
      · rcases processEntryTargets_cases env d targets e with heq | ⟨L₀, hm, heq⟩
        · rw [heq]; exact ih targets L t h ⟨e', he'r, hm', hcp'⟩
        · rw [heq]
          cases hafter : lookupEPA (mergeTargetEntry env d L₀ e.2 targets) L t with
          | none => exact ih _ L t hafter ⟨e', he'r, hm', hcp'⟩
          | some ep1 =>
              -- the head entry itself must have created the association at distance d
              have hd1 : ep1.distance = d := by
                by_cases hL : L₀ = L
                · subst hL
                  cases hcp : alistLookup e.2 t with
                  | none =>
                      rw [mergeTargetEntry_epa_none env d L₀ e.2 targets t h hcp] at hafter
                      cases hafter
                  | some u =>
                      obtain ⟨ep', h', hd'⟩ :=
                        mergeTargetEntry_epa_created env d L₀ e.2 targets t h (by rw [hcp]; rfl)
                      rw [h'] at hafter
                      cases hafter
                      exact hd'
                · exfalso
                  unfold lookupEPA at hafter h
                  rw [show alistLookup (mergeTargetEntry env d L₀ e.2 targets) L
                      = lookupTarget (mergeTargetEntry env d L₀ e.2 targets) L from rfl,
                    mergeTargetEntry_lookup_ne env d L₀ L e.2 targets
                      (fun hcontra => hL hcontra.symm),
                    show lookupTarget targets L = alistLookup targets L from rfl, h] at hafter
                  cases hafter
              obtain ⟨ep2, h2, hd2, _⟩ := roundFold_epa_preserved env d rest _ L t ep1 hafter
              exact ⟨ep2, h2, by rw [hd2, hd1]⟩

theorem roundFold_epa_origin (env : ReachEnv) (d : Nat) (fr : FrontierM) :
    ∀ (targets : TargetsM) (L t : Nat) (ep : EPAm),
      lookupEPA targets L t = none →
      lookupEPA (fr.foldl (processEntryTargets env d) targets) L t = some ep →
      ep.distance = d ∧ DiscRound env fr L t := by
  intro targets L t ep h hsome
  by_cases hd : DiscRound env fr L t
  · obtain ⟨ep', h', hd'⟩ := roundFold_epa_created env d fr targets L t h hd
    rw [hsome] at h'
    cases h'
    exact ⟨hd', hd⟩
  · rw [roundFold_epa_none env d fr targets L t h hd] at hsome
    cases hsome

/-! The BFS invariant: recorded distances are the first (and therefore
least) round at which the association was discoverable. -/

theorem targetsAt_epa_spec (env : ReachEnv) (tests : List TestM) (depth : Nat) :
    ∀ n : Nat,
      (∀ L t ep, lookupEPA (targetsAt env tests depth n) L t = some ep →
        ep.distance < n
          ∧ DiscRound env (frontierAt env tests depth ep.distance) L t
          ∧ ∀ d', d' < n → DiscRound env (frontierAt env tests depth d') L t →
              ep.distance ≤ d')
      ∧ ∀ L t d', d' < n → DiscRound env (frontierAt env tests depth d') L t →
          (lookupEPA (targetsAt env tests depth n) L t).isSome = true := by
  intro n
  induction n with
  | zero =>
      refine ⟨fun L t ep h => ?_, fun L t d' hd' _ => absurd hd' (Nat.not_lt_zero _)⟩
      simp [targetsAt, lookupEPA, alistLookup] at h
  | succ n ih =>
      obtain ⟨iha, ihb⟩ := ih
      have hstep : targetsAt env tests depth (n + 1)
          = (frontierAt env tests depth n).foldl (processEntryTargets env n)
              (targetsAt env tests depth n) := rfl
      constructor
      · intro L t ep h
        rw [hstep] at h
        cases hn : lookupEPA (targetsAt env tests depth n) L t with
        | some ep0 =>
            obtain ⟨ep', h', hd', hr'⟩ := roundFold_epa_preserved env n _ _ L t ep0 hn
            rw [h] at h'
            cases h'
            obtain ⟨hlt0, hdisc0, hmin0⟩ := iha L t ep0 hn
            rw [hd']
            refine ⟨Nat.lt_succ_of_lt hlt0, hdisc0, ?_⟩
            intro d' hd'lt hdisc'
            rcases Nat.lt_succ_iff_lt_or_eq.mp hd'lt with hlt | heq
            · exact hmin0 d' hlt hdisc'
            · rw [heq]; exact Nat.le_of_lt hlt0
        | none =>
            obtain ⟨hdn, hdisc⟩ := roundFold_epa_origin env n _ _ L t ep hn h
            rw [hdn]
            refine ⟨Nat.lt_succ_self _, hdisc, ?_⟩
            intro d' hd'lt hdisc'
            rcases Nat.lt_succ_iff_lt_or_eq.mp hd'lt with hlt | heq
            · exfalso
              have := ihb L t d' hlt hdisc'
              rw [hn] at this
              cases this
            · rw [heq]
      · intro L t d' hd' hdisc
        rw [hstep]
        rcases Nat.lt_succ_iff_lt_or_eq.mp hd' with hlt | heq
        · have hsome := ihb L t d' hlt hdisc
          rw [Option.isSome_iff_exists] at hsome
          obtain ⟨ep0, hn⟩ := hsome
          obtain ⟨ep', h', _, _⟩ := roundFold_epa_preserved env n _ _ L t ep0 hn
          rw [h']
          rfl
        · rw [heq] at hdisc
          cases hn : lookupEPA (targetsAt env tests depth n) L t with
          | some ep0 =>
              obtain ⟨ep', h', _, _⟩ := roundFold_epa_preserved env n _ _ L t ep0 hn
              rw [h']
              rfl
          | none =>
              obtain ⟨ep', h', _⟩ := roundFold_epa_created env n _ _ L t hn hdisc
              rw [h']
              rfl

theorem targetsAt_monotone (env : ReachEnv) (tests : List TestM) (depth : Nat) :
    ∀ (k n : Nat),
      (∀ L tgt, lookupTarget (targetsAt env tests depth n) L = some tgt →
        ∃ tgt', lookupTarget (targetsAt env tests depth (n + k)) L = some tgt'
          ∧ tgt'.distance = tgt.distance ∧ tgt.unsafety.rankU ≤ tgt'.unsafety.rankU)
      ∧ ∀ L t ep, lookupEPA (targetsAt env tests depth n) L t = some ep →
          ∃ ep', lookupEPA (targetsAt env tests depth (n + k)) L t = some ep'
            ∧ ep'.distance = ep.distance
            ∧ optRankS ep.unsafeCallPath ≤ optRankS ep'.unsafeCallPath := by
  intro k
  induction k with
  | zero =>
      intro n
      exact ⟨fun L tgt h => ⟨tgt, h, rfl, Nat.le_refl _⟩,
        fun L t ep h => ⟨ep, h, rfl, Nat.le_refl _⟩⟩
  | succ k ih =>
      intro n
      obtain ⟨ih1, ih2⟩ := ih n
      have hstep : targetsAt env tests depth (n + (k + 1))
          = (frontierAt env tests depth (n + k)).foldl (processEntryTargets env (n + k))
              (targetsAt env tests depth (n + k)) := rfl
      constructor
      · intro L tgt h
        obtain ⟨tgt1, h1, hd1, hr1⟩ := ih1 L tgt h
        obtain ⟨tgt2, h2, hd2, hr2⟩ := roundFold_target_preserved env (n + k) _ _ L tgt1 h1
        rw [hstep]
        exact ⟨tgt2, h2, by rw [hd2, hd1], Nat.le_trans hr1 hr2⟩
      · intro L t ep h
        obtain ⟨ep1, h1, hd1, hr1⟩ := ih2 L t ep h
        obtain ⟨ep2, h2, hd2, hr2⟩ := roundFold_epa_preserved env (n + k) _ _ L t ep1 h1
        rw [hstep]
        exact ⟨ep2, h2, by rw [hd2, hd1], Nat.le_trans hr1 hr2⟩

/-- Concrete oracle for reachability witnesses: test 100 calls keys 1
and 2 directly; key 2 also calls key 1, so local def 1 is reachable from
the test at distances 0 and 1. -/
def envW : ReachEnv :=
  { calls := fun k =>
      if k = 100 then [⟨1, false⟩, ⟨2, false⟩]
      else if k = 2 then [⟨1, false⟩]
      else [],
    isConstFn := fun _ => false,
    localDefId := fun k => if k = 1 then some 1 else if k = 2 then some 2 else Option.none,
    hasBody := fun _ => true,
    skip := fun _ => false,
    findDef := fun _ => true,
    itemUnsafety := fun _ => Unsafety.none,
    mirAvailable := fun _ => true }

def testsW : List TestM := [⟨100, false⟩]

/-- C6: for every completed `reachable_fns` run, the distance recorded
in a target's `reachable_from` entry for test `t` is itself the distance
of a discovered call path, and is minimal among all distances at which
the pair was discovered — a later-discovered longer path never
overwrites it. -/
theorem reachability_min_distance
    (env : ReachEnv) (tests : List TestM) (depth : Nat) (cg : CallGraphM) (tgts : TargetsM)
    (L t : Nat) (tgt : TargetM) (ep : EPAm)
    (hrun : reachable_fns env tests depth = some (cg, tgts))
    (htgt : alistLookup tgts L = some tgt)
    (hep : alistLookup tgt.reachableFrom t = some ep) :
    ep.distance < depth
      ∧ DiscoveredAt env tests depth ep.distance L t
      ∧ ∀ d', d' < depth → DiscoveredAt env tests depth d' L t → ep.distance ≤ d' := by
  cases depth with
  | zero => cases hrun
  | succ n =>
      have hcore : reachableFnsCore env tests (n + 1) = (cg, tgts) := by
        have hs : some (reachableFnsCore env tests (n + 1)) = some (cg, tgts) := hrun
        exact Option.some.inj hs
      have htgts : tgts = targetsAt env tests (n + 1) (n + 1) := by
        rw [← reachableFnsCore_targets env tests (n + 1), hcore]
      have hepa : lookupEPA (targetsAt env tests (n + 1) (n + 1)) L t = some ep := by
        rw [← htgts]
        unfold lookupEPA
        rw [htgt]
        simpa using hep
      exact (targetsAt_epa_spec env tests (n + 1) (n + 1)).1 L t ep hepa

/-- Witness for C6: in `envW`, local def 1 is reachable from test 100
both directly (distance 0) and through key 2 (distance 1); the recorded
distance is 0, the minimum. -/
theorem reachability_min_distance_witness :
    reachable_fns envW testsW 2
        = some (⟨[(100, 1), (100, 2)], [[(2, 1)]]⟩,
            [(1, ⟨1, Unsafety.none, [(100, ⟨0, Option.none⟩)], 0⟩),
             (2, ⟨2, Unsafety.none, [(100, ⟨0, Option.none⟩)], 0⟩)])
      ∧ (0 : Nat) < 2
      ∧ DiscoveredAt envW testsW 2 0 1 100
      ∧ ∀ d', d' < 2 → DiscoveredAt envW testsW 2 d' 1 100 → 0 ≤ d' := by
  refine ⟨rfl, ?_⟩
  have h := reachability_min_distance envW testsW 2
    ⟨[(100, 1), (100, 2)], [[(2, 1)]]⟩
    [(1, ⟨1, Unsafety.none, [(100, ⟨0, Option.none⟩)], 0⟩),
     (2, ⟨2, Unsafety.none, [(100, ⟨0, Option.none⟩)], 0⟩)]
    1 100 ⟨1, Unsafety.none, [(100, ⟨0, Option.none⟩)], 0⟩ ⟨0, Option.none⟩
    rfl rfl rfl
  exact h

/-- C7: the `Unsafety` enum is totally ordered as
`None < Tainted(EnclosingUnsafe) < Tainted(Unsafe) <
Unsafe(EnclosingUnsafe) < Unsafe(Unsafe)` (the derived order), and
during `reachable_fns` both a target's `unsafety` and each entry-point
association's `unsafe_call_path` are only ever strengthened: processing
further rounds (more discovered call paths) never lowers either recorded
value, and never changes a recorded distance. -/
theorem unsafety_order_monotonicity :
    (Unsafety.ltU Unsafety.none (Unsafety.tainted USource.enclosing)
      ∧ Unsafety.ltU (Unsafety.tainted USource.enclosing) (Unsafety.tainted USource.declared)
      ∧ Unsafety.ltU (Unsafety.tainted USource.declared) (Unsafety.unsafeFn USource.enclosing)
      ∧ Unsafety.ltU (Unsafety.unsafeFn USource.enclosing) (Unsafety.unsafeFn USource.declared))
      ∧ (∀ a b : Unsafety, a.leU b ∨ b.leU a)
      ∧ (∀ a b : Unsafety, a.leU b → b.leU a → a = b)
      ∧ (∀ a b c : Unsafety, a.leU b → b.leU c → a.leU c)
      ∧ (∀ (env : ReachEnv) (tests : List TestM) (depth n m L : Nat) (tgt : TargetM),
          n ≤ m →
          lookupTarget (targetsAt env tests depth n) L = some tgt →
          ∃ tgt', lookupTarget (targetsAt env tests depth m) L = some tgt'
            ∧ tgt'.distance = tgt.distance ∧ tgt.unsafety.leU tgt'.unsafety)
      ∧ ∀ (env : ReachEnv) (tests : List TestM) (depth n m L t : Nat) (ep : EPAm),
          n ≤ m →
          lookupEPA (targetsAt env tests depth n) L t = some ep →
          ∃ ep', lookupEPA (targetsAt env tests depth m) L t = some ep'
            ∧ ep'.distance = ep.distance
            ∧ optRankS ep.unsafeCallPath ≤ optRankS ep'.unsafeCallPath := by
  refine ⟨⟨by decide, by decide, by decide, by decide⟩, by decide, by decide, by decide,
    ?_, ?_⟩
  · intro env tests depth n m L tgt hnm h
    have hk : n + (m - n) = m := Nat.add_sub_cancel' hnm
    obtain ⟨tgt', h', hd', hr'⟩ := (targetsAt_monotone env tests depth (m - n) n).1 L tgt h
    rw [hk] at h'
    exact ⟨tgt', h', hd', hr'⟩
  · intro env tests depth n m L t ep hnm h
    have hk : n + (m - n) = m := Nat.add_sub_cancel' hnm
    obtain ⟨ep', h', hd', hr'⟩ := (targetsAt_monotone env tests depth (m - n) n).2 L t ep h
    rw [hk] at h'
    exact ⟨ep', h', hd', hr'⟩

/-- Witness for C7: between rounds 1 and 2 of the `envW` run, target 1's
recorded values persist without being lowered. -/
theorem unsafety_order_monotonicity_witness :
    (1 : Nat) ≤ 2
      ∧ lookupTarget (targetsAt envW testsW 2 1) 1
          = some ⟨1, Unsafety.none, [(100, ⟨0, Option.none⟩)], 0⟩
      ∧ ∃ tgt', lookupTarget (targetsAt envW testsW 2 2) 1 = some tgt'
          ∧ tgt'.distance = (⟨1, Unsafety.none, [(100, ⟨0, Option.none⟩)], 0⟩ : TargetM).distance
          ∧ (⟨1, Unsafety.none, [(100, ⟨0, Option.none⟩)], 0⟩ : TargetM).unsafety.leU
              tgt'.unsafety :=
  ⟨by decide, by decide,
   unsafety_order_monotonicity.2.2.2.2.1 envW testsW 2 1 2 1
     ⟨1, Unsafety.none, [(100, ⟨0, Option.none⟩)], 0⟩ (by decide) (by decide)⟩

end Mutest
